import Mathlib

/-!
Verification of the Wordle guess-selection engine of this repository.

The development shallowly embeds the Python sources:

* `src/game/wordle_logic.py` — the feedback-pattern codec
  (`WordleGame._calculate_pattern`, `WordleGame.decode_feedback`,
  `WordleGame.evaluate_guess`) and consistency filtering;
* `src/data/generate_full_matrix.py` — the reference codec
  (`calculate_pattern`) and the dense pattern matrix
  (`generate_pattern_matrix`);
* `src/trie/trie_structure.py` — the prefix trie (`TrieNode`, `WordleTrie`,
  `insert`, `dfs_search`, `_collect_words`);
* `src/algorithms/solvers.py` — the solvers (`BaseSolver`, `DFSSolver`,
  `HillClimbingSolver`, `KnowledgeBasedHillClimbingSolver`, `EntropySolver`,
  `ProgressiveEntropySolver`).

Modelling conventions:

* Words are Lean `String`s.  The vocabulary loaders lowercase every word and
  the game lowercases each guess/secret before use, so all words reaching the
  embedded functions are lowercase; the `.lower()` calls, identities on that
  domain, are therefore omitted from the embedding.
* Python `set`s of words are modelled as `List String` (the claims proved
  here are either order-insensitive or about singleton/empty sets).
* Python's `collections.Counter` used by the yellow pass is modelled as a
  `List Char` multiset: `counter[c]` is `List.count c`, `counter[c] -= 1`
  is `List.erase`.
* Python dicts are modelled as association lists (`List (key × value)`):
  insertion of a new key appends at the end, updating an existing key keeps
  its position, and iteration order is list order — exactly CPython's
  insertion-ordered dict semantics.
* The NumPy `uint8` pattern matrix stores each code modulo 256; patterns of
  5-letter words are below 243, so no truncation occurs (proved below).
* Machine floats of the entropy computations are modelled as real numbers.
-/

/-! ### Pattern constants (wordle_logic.py lines 8-10) -/

def MISS : Nat := 0

def MISPLACED : Nat := 1

def EXACT : Nat := 2

/-! ### The pattern codec

`WordleGame._calculate_pattern` (wordle_logic.py lines 136-166) and the
reference `calculate_pattern` (generate_full_matrix.py lines 29-59) are the
same algorithm, embedded once below and aliased.

The green pass walks the two letter lists in lock step; where letters agree
it marks `EXACT` and replaces both letters by `None` (here: `Option.none`)
so they cannot re-match.  The source loops over exactly 5 indices; the
embedding recurses over the lists, which coincides with the source on the
5-letter inputs the game supplies. -/

def pass1 : List Char → List Char → List Nat × (List (Option Char) × List (Option Char))
  | g :: gs, s :: ss =>
    let r := pass1 gs ss
    if g = s then (EXACT :: r.1, (none :: r.2.1, none :: r.2.2))
    else (MISS :: r.1, (some g :: r.2.1, some s :: r.2.2))
  | _, _ => ([], ([], []))

/-- Yellow pass (wordle_logic.py lines 152-159): for each still-`MISS`
position whose guess letter was not consumed, mark `MISPLACED` and decrement
the secret counter if the counter is positive. -/
def pass2 : List Nat → List (Option Char) → List Char → List Nat
  | f :: fs, g :: gs, ctr =>
    if f = MISS then
      match g with
      | some c =>
        if 0 < ctr.count c then MISPLACED :: pass2 fs gs (ctr.erase c)
        else f :: pass2 fs gs ctr
      | none => f :: pass2 fs gs ctr
    else f :: pass2 fs gs ctr
  | f :: fs, [], ctr => f :: pass2 fs [] ctr
  | [], _, _ => []

/-- Base-3 encoding of the feedback list (wordle_logic.py lines 161-166):
`feedback_int = feedback_int * 3 + f`, left to right, so position 0 is the
most significant digit. -/
def encodeFeedback (l : List Nat) : Nat := l.foldl (fun acc f => acc * 3 + f) 0

/-- `WordleGame._calculate_pattern` (wordle_logic.py lines 136-166). -/
def calculate_pattern (guess secret : String) : Nat :=
  let r := pass1 guess.toList secret.toList
  let ctr := r.2.2.filterMap id
  encodeFeedback (pass2 r.1 r.2.1 ctr)

/-- The reference implementation `calculate_pattern` of
generate_full_matrix.py (lines 29-59) is textually the same algorithm. -/
def generateMatrixCalculatePattern (guess secret : String) : Nat :=
  calculate_pattern guess secret

/-- `WordleGame.decode_feedback` (wordle_logic.py lines 168-174): pop the five
base-3 digits least significant first, then reverse. -/
def decodeDigits : Nat → Nat → List Nat
  | 0, _ => []
  | k + 1, n => n % 3 :: decodeDigits k (n / 3)

def decode_feedback (n : Nat) : List Nat := (decodeDigits 5 n).reverse

/-! ### Spec-side codec for claim C1

These definitions follow the wording of the claim/spec (§4.1), to be compared
with the embedded source: first pass marks `EXACT` where guess and secret
letters agree, consuming both; a multiset of the unconsumed secret letters is
built; the second pass walks positions left to right, marking `MISPLACED` and
decrementing the multiset when the remaining count is positive; the five
classifications are encoded in base 3, most significant position first. -/

def specFirstPass (g s : List Char) : List Nat :=
  List.zipWith (fun a b => if a = b then EXACT else MISS) g s

def specUnconsumed (g s : List Char) : Multiset Char :=
  ((g.zip s).filterMap (fun p => if p.1 = p.2 then none else some p.2) : List Char)

def specSecondPass : List Nat → List Char → Multiset Char → List Nat
  | f :: fs, c :: cs, m =>
    if f = MISS then
      if 0 < m.count c then MISPLACED :: specSecondPass fs cs (m.erase c)
      else MISS :: specSecondPass fs cs m
    else f :: specSecondPass fs cs m
  | _, _, _ => []

/-- Base-3 value of the five classifications, most significant position
first: position `i` carries weight `3 ^ (4 - i)`. -/
def specEncode (fb : List Nat) : Nat :=
  ∑ i in Finset.range 5, fb.getD i 0 * 3 ^ (4 - i)

def specPattern (g s : String) : Nat :=
  specEncode
    (specSecondPass (specFirstPass g.toList s.toList) g.toList
      (specUnconsumed g.toList s.toList))

/-! ### Pattern matrix and `evaluate_guess`

`generate_pattern_matrix` (generate_full_matrix.py lines 62-83) fills a dense
uint8 array with `result[gi, si] = calculate_pattern(words[gi], words[si])`;
the uint8 store keeps the value modulo 256.  `WordleGame._load_pattern_matrix`
(wordle_logic.py lines 72-96) builds `word_to_idx = {w: i for i, w in
enumerate(word_list)}`; with a dict comprehension a repeated word keeps its
last index. -/

def generate_pattern_matrix (words : List String) : List (List Nat) :=
  words.map (fun g => words.map (fun s => calculate_pattern g s % 256))

/-- Array access `pattern_matrix[gi, si]` (in-bounds whenever used). -/
def matrixEntry (m : List (List Nat)) (gi si : Nat) : Nat := (m.getD gi []).getD si 0

/-- Index of a word in the matrix vocabulary, as produced by the dict
comprehension `{w: i for i, w in enumerate(word_list)}` (last occurrence
wins); only consulted after a membership check, so the `0` default is never
reached on the paths modelled here. -/
def wordToIdx (words : List String) (w : String) : Nat :=
  words.enum.foldl (fun acc p => if p.2 = w then p.1 else acc) 0

/-- `WordleGame.evaluate_guess` (wordle_logic.py lines 106-134): O(1) matrix
lookup when both words are indexed, otherwise fall back to
`_calculate_pattern`.  The matrix is the one generated over `words`. -/
def evaluate_guess (words : List String) (guess secret : String) : Nat :=
  if guess ∈ words ∧ secret ∈ words then
    matrixEntry (generate_pattern_matrix words) (wordToIdx words guess)
      (wordToIdx words secret)
  else calculate_pattern guess secret

/-! ### Candidate narrowing (solvers.py)

`BaseSolver._update_currently_consistent_words` (solvers.py lines 43-56)
resets to the full allowed vocabulary on an empty history and otherwise
filters the current set by every `(guess, feedback)` pair of the history.
`BaseSolver._update_trie` (lines 58-79) filters the current set by the last
pair only (then rebuilds the trie from it, modelled separately below). -/

def consistentStep (words : List String) (S : List String) (p : String × Nat) :
    List String :=
  S.filter (fun w => evaluate_guess words p.1 w == p.2)

def updateConsistent (words : List String) (S : List String)
    (history : List (String × Nat)) : List String :=
  if history = [] then words else history.foldl (consistentStep words) S

/-- The word-set part of `BaseSolver._update_trie`: with a non-empty history
the current set is filtered by the last `(guess, feedback)` pair; with an
empty history it is left unchanged. -/
def updateTrieWords (words : List String) (S : List String)
    (history : List (String × Nat)) : List String :=
  match history.getLast? with
  | none => S
  | some p => consistentStep words S p

/-- From-scratch replay: filter the full vocabulary by every pair of the
history in order (spec §6/§8). -/
def filterHistory (words : List String) (history : List (String × Nat)) :
    List String :=
  history.foldl (consistentStep words) words

/-- Incremental processing of a strictly growing history through
`_update_currently_consistent_words`: the call for history `h ++ [p]` starts
from the state left by the call for history `h`. -/
def incRunConsistentAux (words : List String) : List (String × Nat) → List String
  | [] => words
  | p :: rev => updateConsistent words (incRunConsistentAux words rev) ((p :: rev).reverse)

def incRunConsistent (words : List String) (h : List (String × Nat)) : List String :=
  incRunConsistentAux words h.reverse

/-- Incremental processing of a strictly growing history through
`_update_trie` (which only looks at the last pair of each call's history). -/
def incRunTrieAux (words : List String) : List (String × Nat) → List String
  | [] => words
  | p :: rev => updateTrieWords words (incRunTrieAux words rev) ((p :: rev).reverse)

def incRunTrie (words : List String) (h : List (String × Nat)) : List String :=
  incRunTrieAux words h.reverse

/-! ### The trie (trie_structure.py)

`TrieNode` (lines 14-23) carries a character, a depth, a dict of children,
an `is_word` flag and the completed word.  The children dict is an
association list here (see the conventions above).  The root's `char` is the
empty Python string; a placeholder space is used since Lean characters are
non-empty. -/

inductive TrieNode where
  | mk (char : Char) (depth : Nat) (children : List (Char × TrieNode))
      (is_word : Bool) (word : Option String)

def TrieNode.char : TrieNode → Char
  | .mk c _ _ _ _ => c

def TrieNode.depth : TrieNode → Nat
  | .mk _ d _ _ _ => d

def TrieNode.children : TrieNode → List (Char × TrieNode)
  | .mk _ _ cs _ _ => cs

def TrieNode.is_word : TrieNode → Bool
  | .mk _ _ _ iw _ => iw

def TrieNode.word : TrieNode → Option String
  | .mk _ _ _ _ ow => ow

/-- Dict lookup `node.children[char]`. -/
def lookupChild : List (Char × TrieNode) → Char → Option TrieNode
  | [], _ => none
  | (c1, t) :: r, c => if c1 = c then some t else lookupChild r c

/-- Dict store `node.children[char] = t`: updates an existing key in place,
appends a new key at the end. -/
def assocSet : List (Char × TrieNode) → Char → TrieNode → List (Char × TrieNode)
  | [], c, t => [(c, t)]
  | (c1, t1) :: r, c, t => if c1 = c then (c, t) :: r else (c1, t1) :: assocSet r c t

/-- `WordleTrie.insert` (trie_structure.py lines 54-74) walking the word's
characters: create a missing child (its depth is `i + 1` at position `i`),
descend, and mark the final node as a complete word.  (`leaf_nodes` and
`word_count`, used only for statistics, are not modelled.) -/
def insertAux (word : String) : List Char → Nat → TrieNode → TrieNode
  | [], _, .mk c d cs _ _ => .mk c d cs true (some word)
  | ch :: rest, depth, .mk c d cs iw ow =>
    let child := (lookupChild cs ch).getD (.mk ch depth [] false none)
    .mk c d (assocSet cs ch (insertAux word rest (depth + 1) child)) iw ow

def emptyRoot : TrieNode := .mk ' ' 0 [] false none

def insertWord (t : TrieNode) (w : String) : TrieNode := insertAux w w.toList 1 t

/-- `WordleTrie.__init__` (lines 39-52): insert every 5-letter word. -/
def buildTrie (l : List String) : TrieNode :=
  l.foldl (fun t w => if w.length = 5 then insertWord t w else t) emptyRoot

/- Subtree size, the measure for the DFS loop's termination. -/
mutual
def nodeSize : TrieNode → Nat
  | .mk _ _ cs _ _ => 1 + childrenSize cs
def childrenSize : List (Char × TrieNode) → Nat
  | [] => 0
  | (_, t) :: r => nodeSize t + childrenSize r
end

/- `WordleTrie._collect_words` (lines 186-192): every word stored at an
`is_word` node of the subtree, in child-dict order. -/
mutual
def wordsIn : TrieNode → List String
  | .mk _ _ cs iw ow => (if iw then [ow.getD ""] else []) ++ wordsInChildren cs
def wordsInChildren : List (Char × TrieNode) → List String
  | [] => []
  | (_, t) :: r => wordsIn t ++ wordsInChildren r
end

/- Well-formedness invariant of tries built by insertion: the word stored at
an `is_word` node spells exactly the path from the root to that node. -/
mutual
def goodNode : List Char → TrieNode → Prop
  | p, .mk _ _ cs iw ow =>
    (iw = true → ∃ w : String, ow = some w ∧ w.toList = p) ∧ goodChildren p cs
def goodChildren : List Char → List (Char × TrieNode) → Prop
  | _, [] => True
  | p, (c, t) :: r => goodNode (p ++ [c]) t ∧ goodChildren p r
end

/-- `sorted(node.children.items(), reverse=True)` (line 128): the dict items
sorted by key in descending order (keys are distinct, so the tuple comparison
never reaches the node component). -/
def sortChildrenDesc (cs : List (Char × TrieNode)) : List (Char × TrieNode) :=
  List.insertionSort (fun a b => b.1 ≤ a.1) cs

/-- Stack measure: total size of the subtrees still on the stack. -/
def stackMeasure (st : List (TrieNode × List String)) : Nat :=
  (st.map (fun q => nodeSize q.1)).sum

/-- One expansion step of `dfs_search` (lines 127-130): the children are
pushed in descending key order onto the stack.  The Python stack grows at the
tail and pops from the tail; the Lean stack keeps its top at the head, so the
pushed block appears reversed in front of the remaining stack — child with
the smallest key on top, as in the source.  The recorded path extends by the
child's character (as a 1-character string, matching the Python list of
single-character strings). -/
def pushEntries (node : TrieNode) (path : List String)
    (rest : List (TrieNode × List String)) : List (TrieNode × List String) :=
  ((sortChildrenDesc node.children).map
    (fun p => (p.2,
      if node.depth > 0 then path ++ [String.singleton p.1]
      else [String.singleton p.1]))).reverse ++ rest

/-- `WordleTrie.dfs_search` loop (lines 116-132): pop, return the first
complete word reached (with its path and the visit count), else push the
children and continue. -/
def dfsLoop : List (TrieNode × List String) → Nat →
    Option (List String) × Option String × Nat
  | [], n => (none, none, n)
  | (node, path) :: rest, n =>
    if node.is_word then (some (path ++ [node.word.getD ""]), node.word, n + 1)
    else dfsLoop (pushEntries node path rest) (n + 1)
termination_by st _ => stackMeasure st
decreasing_by
  have hsum : ∀ cs : List (Char × TrieNode),
      (cs.map (fun p : Char × TrieNode => nodeSize p.2)).sum = childrenSize cs := by
    intro cs
    induction cs with
    | nil => simp [childrenSize]
    | cons a r ih => cases a; simp [childrenSize, ih]
  cases node with
  | mk c d cs iw ow =>
    have hperm :
        ((sortChildrenDesc cs).map (fun p : Char × TrieNode => nodeSize p.2)).sum
          = (cs.map (fun p : Char × TrieNode => nodeSize p.2)).sum :=
      ((List.perm_insertionSort _ cs).map _).sum_eq
    simp [stackMeasure, pushEntries, Function.comp_def, TrieNode.children,
      TrieNode.depth, nodeSize, hperm, hsum]
    rw [List.sum_reverse, hperm, hsum]
    omega

def dfs_search (root : TrieNode) : Option (List String) × Option String × Nat :=
  dfsLoop [(root, [])] 0

/-! ### DFS solver (solvers.py lines 99-125) -/

/-- `DFSSolver.pick_guess`: update the trie from the history, run the DFS,
return the found word; otherwise fall back to a remaining consistent word or
the sentinel string `"error"`. -/
def dfsPickGuess (words S : List String) (history : List (String × Nat)) : String :=
  let ccw := updateTrieWords words S history
  match dfs_search (buildTrie ccw) with
  | (_, some w, _) => w
  | (_, none, _) =>
    match ccw with
    | c :: _ => c
    | [] => "error"

/-! ### Hill-climbing solvers (solvers.py lines 127-205 and 423-505) -/

/-- Python `max(chars, key=...)` over a non-empty list: the first element
attaining the maximal key. -/
def argmaxKeyFirst (key : Char → Nat) (l : List Char) : Option Char :=
  l.foldl (fun acc c =>
    match acc with
    | none => some c
    | some b => if key b < key c then some c else acc) none

/-- Per-position letter frequency `freq_matrix[i][char]` (lines 154-169 and
436-447); a defaultdict, so absent letters count 0. -/
def posFreq (ws : List String) (i : Nat) (c : Char) : Nat :=
  (ws.filterMap (fun w => w.toList.get? i)).count c

/-- Greedy descent of `pick_guess` (lines 182-196 and 462-476): five rounds,
each choosing among the current node's children the letter of maximal
heuristic score; `none` models the early `return` taken when a node has no
children. -/
def greedyGo (heur : Nat → Char → Nat) : Nat → Nat → TrieNode → String → Option String
  | 0, _, _, acc => some acc
  | r + 1, i, node, acc =>
    match argmaxKeyFirst (heur i) (node.children.map Prod.fst) with
    | none => none
    | some c =>
      greedyGo heur r (i + 1) ((lookupChild node.children c).getD emptyRoot) (acc.push c)

/-- `HillClimbingSolver.pick_guess`: static heuristic built from the full
allowed vocabulary. -/
def hillClimbingPickGuess (words S : List String) (history : List (String × Nat)) :
    String :=
  let ccw := updateTrieWords words S history
  match greedyGo (posFreq words) 5 0 (buildTrie ccw) "" with
  | some gw => gw
  | none =>
    match ccw with
    | c :: _ => c
    | [] => "error"

/-- `KnowledgeBasedHillClimbingSolver.pick_guess`: the heuristic is rebuilt
each turn from the narrowed candidate set. -/
def kbHillClimbingPickGuess (words S : List String) (history : List (String × Nat)) :
    String :=
  let ccw := updateTrieWords words S history
  match greedyGo (posFreq ccw) 5 0 (buildTrie ccw) "" with
  | some gw => gw
  | none =>
    match ccw with
    | c :: _ => c
    | [] => "error"

/-! ### Entropy computations (solvers.py, EntropySolver)

Machine floats are modelled as real numbers.  `Real.logb 2 0 = 0` in
Mathlib, which matches the convention `0 · log₂ 0 = 0` used by
`scipy.stats.entropy` and by the explicit `probs > 0` / `count > 0` filters
of the source. -/

/-- Number of candidates (given by matrix index) whose matrix pattern
against guess row `gi` equals `c`: one bucket of the histogram accumulated by
`np.add.at` in `_get_entropies_vectorized` (lines 280-287). -/
def vecCount (words : List String) (gi : Nat) (candIdx : List Nat) (c : Nat) : Nat :=
  (candIdx.filter
    (fun si => matrixEntry (generate_pattern_matrix words) gi si == c)).length

/-- `EntropySolver._get_entropies_vectorized` (lines 260-295), one row:
normalize the 243-bucket histogram and take the base-2 Shannon entropy
(`scipy_entropy(…, base=2)`). -/
noncomputable def entropiesVectorized (words : List String) (candIdx : List Nat)
    (gi : Nat) : ℝ :=
  ∑ c in Finset.range 243,
    -(((vecCount words gi candIdx c : ℝ) / (candIdx.length : ℝ)) *
      Real.logb 2 ((vecCount words gi candIdx c : ℝ) / (candIdx.length : ℝ)))

/-- Number of candidate words whose `evaluate_guess` pattern equals `c`: the
`Counter` bucket of `_calculate_entropy_slow` (lines 325-338). -/
def slowCount (words : List String) (g : String) (cands : List String) (c : Nat) :
    Nat :=
  (cands.filter (fun s => evaluate_guess words g s == c)).length

/-- `EntropySolver._calculate_entropy_slow` (lines 325-338): iterate over the
distinct observed patterns (the `Counter` keys) and sum `p * -log2 p`. -/
noncomputable def entropyNaiveSlow (words : List String) (g : String)
    (cands : List String) : ℝ :=
  ∑ c in (cands.map (evaluate_guess words g)).toFinset,
    ((slowCount words g cands c : ℝ) / (cands.length : ℝ)) *
      -Real.logb 2 ((slowCount words g cands c : ℝ) / (cands.length : ℝ))

/-- Number of candidate words whose codec pattern equals `c`. -/
def codecCount (g : String) (cands : List String) (c : Nat) : Nat :=
  (cands.filter (fun s => calculate_pattern g s == c)).length

/-- The spec formula (§4.5): `H(guess) = -Σ_code p(code)·log2 p(code)` with
`p(code)` the fraction of candidates that would produce that code. -/
noncomputable def shannonEntropy (g : String) (cands : List String) : ℝ :=
  -∑ c in Finset.range 243,
    ((codecCount g cands c : ℝ) / (cands.length : ℝ)) *
      Real.logb 2 ((codecCount g cands c : ℝ) / (cands.length : ℝ))

/-! ### EntropySolver.pick_guess (solvers.py lines 340-387) -/

/-- `np.argmax` over the first `n` entries of `f`: index of the first
occurrence of the maximum. -/
noncomputable def argmaxIdxReal (f : Nat → ℝ) (n : Nat) : Nat :=
  (List.range n).foldl (fun best i => if f best < f i then i else best) 0

/-- Entropy row vector with the already-used words masked to `-1`
(lines 367-369). -/
noncomputable def entMasked (words alreadyUsed : List String) (candIdx : List Nat)
    (gi : Nat) : ℝ :=
  if gi ∈ (alreadyUsed.filter (fun w => w ∈ words)).map (wordToIdx words) then -1
  else entropiesVectorized words candIdx gi

/-- The vectorized argmax branch of `EntropySolver.pick_guess`
(lines 355-387): candidate indices, masked entropies, `np.argmax`, and the
tie-break preferring a live candidate among all indices within `1e-9` of the
best entropy. -/
noncomputable def entArgmaxBranch (words alreadyUsed ccw : List String) : String :=
  let candIdx := (ccw.filter (fun c => c ∈ words)).map (wordToIdx words)
  let ents := entMasked words alreadyUsed candIdx
  let n := words.length
  let bestIdx := argmaxIdxReal ents n
  let bestWord := (words.get? bestIdx).getD ""
  let tied := (List.range n).filter
    (fun i => decide (|ents i - ents bestIdx| < 1 / 1000000000))
  if 1 < tied.length then
    match tied.find? (fun i => decide ((words.get? i).getD "" ∈ ccw)) with
    | some i => (words.get? i).getD ""
    | none => bestWord
  else bestWord

/-- `EntropySolver.pick_guess` (lines 340-387): first-guess shortcut, narrow
the candidate set by the whole history, then the `"error"` sentinel for an
empty set, the single-candidate shortcut, and otherwise the vectorized
argmax. -/
noncomputable def entPickGuess (words alreadyUsed S : List String) (fg : String)
    (history : List (String × Nat)) : String :=
  if history = [] then fg
  else
    match updateConsistent words S history with
    | [] => "error"
    | [c] => c
    | c1 :: c2 :: rest => entArgmaxBranch words alreadyUsed (c1 :: c2 :: rest)

/-! ### ProgressiveEntropySolver (solvers.py lines 507-749)

`calculate_entropy` (lines 537-585) memoizes per-turn entropies in the dict
`_turn_entropy_cache`; `_compute_entropy_turn` (lines 608-669) draws random
samples while constructing the greedy word, computing (and caching) the
entropy of every sampled word, and finally caches the greedy word itself;
`pick_guess` (lines 671-712) then returns the better of the greedy word and
the best word seen in the cache.

The randomized trie sampling and the greedy letter construction determine
*which* words get scored; they are modelled by universally quantified
parameters `sampled` (the words scored during the construction, in order)
and `greedyOracle` (the constructed word).  The per-word entropy is a pure
function of the word once the turn's candidate set is fixed, modelled by the
parameter `H`.  The cache value type is kept generic over a linear order
(instantiated with `ℝ` for the actual solver): Python's `-1.0` sentinel for
`best_cached_entropy` is below every stored entropy (Shannon entropies are
nonnegative, proved below), so the first cache entry always replaces it —
`bestCached` models the scan with an `Option` accumulator accordingly. -/

section EntropyCache

variable {α : Type} [LinearOrder α] [Zero α]

/-- Dict lookup `self._turn_entropy_cache[w]` (keys are unique by
construction). -/
def cacheLookup (cache : List (String × α)) (w : String) : Option α :=
  (cache.find? (fun p => p.1 == w)).map Prod.snd

/-- `calculate_entropy` (lines 537-585) as a cache transformer: a hit leaves
the cache unchanged, a miss appends the computed entropy. -/
def calcEntropyCached (H : String → α) (cache : List (String × α)) (w : String) :
    List (String × α) :=
  match cacheLookup cache w with
  | some _ => cache
  | none => cache ++ [(w, H w)]

/-- The cache at the end of `_compute_entropy_turn` in the many-candidates
case: every sampled word is scored in order, then the greedy word
(line 667). -/
def computeTurnCache (H : String → α) (sampled : List String) (greedy : String) :
    List (String × α) :=
  calcEntropyCached H (sampled.foldl (calcEntropyCached H) []) greedy

/-- The `best_cached_word` scan of `pick_guess` (lines 687-693): first entry
beats the `-1.0` sentinel, afterwards only a strictly larger entropy
replaces the incumbent. -/
def bestCached (cache : List (String × α)) : Option (String × α) :=
  cache.foldl
    (fun acc p =>
      match acc with
      | none => some p
      | some q => if q.2 < p.2 then some p else acc) none

/-- Final selection of `pick_guess` (lines 682-712):
`greedy_entropy = cache.get(greedy, 0.0)`; switch to the best cached word
only if its entropy is strictly higher. -/
def finalSelection (cache : List (String × α)) (greedy : String) : String :=
  let ge := (cacheLookup cache greedy).getD 0
  match bestCached cache with
  | some p => if ge < p.2 then p.1 else greedy
  | none => greedy

/-- `ProgressiveEntropySolver.pick_guess` (lines 671-712): first-guess
shortcut, `_update_trie` narrowing, `_compute_entropy_turn` (whose
empty/singleton candidate shortcuts return `"error"`/the single word, caching
the latter's entropy), and the final greedy-versus-cache selection. -/
def progPickGuess (words S : List String) (fg : String) (H : String → α)
    (sampled : List String) (greedyOracle : String)
    (history : List (String × Nat)) : String :=
  if history = [] then fg
  else
    match updateTrieWords words S history with
    | [] => finalSelection ([] : List (String × α)) "error"
    | [w] => finalSelection (calcEntropyCached H [] w) w
    | _ :: _ :: _ =>
      finalSelection (computeTurnCache H sampled greedyOracle) greedyOracle

end EntropyCache

/-- The entropy actually computed by
`ProgressiveEntropySolver.calculate_entropy` on a cache miss
(lines 549-582): the matrix path over the candidate indices when the word is
indexed (`probs = probs[probs > 0]`, then `-Σ p·log2 p`), otherwise the
manual `Counter` fallback over the candidate words. -/
noncomputable def progTurnEntropy (words : List String) (candIdx : List Nat)
    (cands : List String) (w : String) : ℝ :=
  if w ∈ words then
    ∑ c in (Finset.range 243).filter (fun c => 0 < vecCount words (wordToIdx words w) candIdx c),
      -(((vecCount words (wordToIdx words w) candIdx c : ℝ) / (candIdx.length : ℝ)) *
        Real.logb 2 ((vecCount words (wordToIdx words w) candIdx c : ℝ) / (candIdx.length : ℝ)))
  else
    ∑ c in (cands.map (evaluate_guess words w)).toFinset,
      ((slowCount words w cands c : ℝ) / (cands.length : ℝ)) *
        -Real.logb 2 ((slowCount words w cands c : ℝ) / (cands.length : ℝ))

/-- Proof-side description of the trie produced by inserting a single word
into an empty node: a bare chain.  The second `Nat` is the stored depth of
the node, the third the depth assigned to its first child. -/
def chainNode (w : String) : Char → Nat → Nat → List Char → TrieNode
  | c, d0, _, [] => TrieNode.mk c d0 [] true (some w)
  | c, d0, dn, ch :: rest =>
    TrieNode.mk c d0 [(ch, chainNode w ch dn (dn + 1) rest)] false none

/-- Proof-side abbreviations for the two masked lists produced by the green
pass: the guess and secret letters with the exact-match positions consumed. -/
def maskGuess (g s : List Char) : List (Option Char) :=
  List.zipWith (fun a b => if a = b then none else some a) g s

def maskSecret (g s : List Char) : List (Option Char) :=
  List.zipWith (fun a b => if a = b then (none : Option Char) else some b) g s

/-! ## Theorems -/

set_option maxRecDepth 20000

/-! ### Codec lemmas -/

lemma toList_length (s : String) : s.toList.length = s.length := rfl

lemma encodeFoldl_lt (l : List Nat) :
    ∀ acc : Nat, (∀ f ∈ l, f < 3) →
      l.foldl (fun a f => a * 3 + f) acc < (acc + 1) * 3 ^ l.length := by
  induction l with
  | nil => intro acc _; simp
  | cons x xs ih =>
    intro acc h
    have hx : x < 3 := h x (by simp)
    have := ih (acc * 3 + x) (fun f hf => h f (by simp [hf]))
    calc xs.foldl (fun a f => a * 3 + f) (acc * 3 + x)
        < (acc * 3 + x + 1) * 3 ^ xs.length := this
      _ ≤ ((acc + 1) * 3) * 3 ^ xs.length :=
          Nat.mul_le_mul_right _ (by omega)
      _ = (acc + 1) * 3 ^ (x :: xs).length := by
          simp [List.length_cons, pow_succ]; ring

lemma encodeFeedback_lt (l : List Nat) (h : ∀ f ∈ l, f < 3) :
    encodeFeedback l < 3 ^ l.length := by
  have := encodeFoldl_lt l 0 h
  simpa [encodeFeedback] using this

lemma specFirstPass_cons (a b : Char) (gs ss : List Char) :
    specFirstPass (a :: gs) (b :: ss)
      = (if a = b then EXACT else MISS) :: specFirstPass gs ss := rfl

lemma maskGuess_cons (a b : Char) (gs ss : List Char) :
    maskGuess (a :: gs) (b :: ss)
      = (if a = b then none else some a) :: maskGuess gs ss := rfl

lemma maskSecret_cons (a b : Char) (gs ss : List Char) :
    maskSecret (a :: gs) (b :: ss)
      = (if a = b then none else some b) :: maskSecret gs ss := rfl

lemma pass1_eq (g s : List Char) :
    pass1 g s = (specFirstPass g s, (maskGuess g s, maskSecret g s)) := by
  induction g generalizing s with
  | nil => cases s <;> rfl
  | cons a gs ih =>
    cases s with
    | nil => rfl
    | cons b ss =>
      by_cases hab : a = b <;>
        simp [pass1, ih, specFirstPass_cons, maskGuess_cons, maskSecret_cons, hab]

lemma unconsumed_list_eq (g s : List Char) :
    (maskSecret g s).filterMap id
      = (g.zip s).filterMap (fun p => if p.1 = p.2 then none else some p.2) := by
  induction g generalizing s with
  | nil => cases s <;> rfl
  | cons a gs ih =>
    cases s with
    | nil => rfl
    | cons b ss =>
      by_cases hab : a = b <;> simp [maskSecret_cons, hab, ih]

lemma specUnconsumed_eq (g s : List Char) :
    specUnconsumed g s = ((maskSecret g s).filterMap id : List Char) := by
  rw [specUnconsumed, unconsumed_list_eq]

lemma pass2_cons_notmiss (f : Nat) (hf : f ≠ MISS) (fs : List Nat)
    (og : Option Char) (gs : List (Option Char)) (ctr : List Char) :
    pass2 (f :: fs) (og :: gs) ctr = f :: pass2 fs gs ctr := by
  simp [pass2, hf]

lemma pass2_cons_miss_pos (fs : List Nat) (c : Char) (gs : List (Option Char))
    (ctr : List Char) (h : 0 < ctr.count c) :
    pass2 (MISS :: fs) (some c :: gs) ctr
      = MISPLACED :: pass2 fs gs (ctr.erase c) := by
  simp [pass2, h]

lemma pass2_cons_miss_zero (fs : List Nat) (c : Char) (gs : List (Option Char))
    (ctr : List Char) (h : ¬0 < ctr.count c) :
    pass2 (MISS :: fs) (some c :: gs) ctr = MISS :: pass2 fs gs ctr := by
  simp [pass2, h]

lemma specSecondPass_cons_notmiss (f : Nat) (hf : f ≠ MISS) (fs : List Nat)
    (c : Char) (cs : List Char) (m : Multiset Char) :
    specSecondPass (f :: fs) (c :: cs) m = f :: specSecondPass fs cs m := by
  simp [specSecondPass, hf]

lemma specSecondPass_cons_miss_pos (fs : List Nat) (c : Char) (cs : List Char)
    (m : Multiset Char) (h : 0 < m.count c) :
    specSecondPass (MISS :: fs) (c :: cs) m
      = MISPLACED :: specSecondPass fs cs (m.erase c) := by
  simp [specSecondPass, h]

lemma specSecondPass_cons_miss_zero (fs : List Nat) (c : Char) (cs : List Char)
    (m : Multiset Char) (h : ¬0 < m.count c) :
    specSecondPass (MISS :: fs) (c :: cs) m = MISS :: specSecondPass fs cs m := by
  simp [specSecondPass, h]

lemma exact_ne_miss : EXACT ≠ MISS := by decide

lemma pass2_spec (g s : List Char) :
    ∀ ctr : List Char,
      pass2 (specFirstPass g s) (maskGuess g s) ctr
        = specSecondPass (specFirstPass g s) g (↑ctr) := by
  induction g generalizing s with
  | nil => intro ctr; cases s <;> rfl
  | cons a gs ih =>
    intro ctr
    cases s with
    | nil => rfl
    | cons b ss =>
      rw [specFirstPass_cons, maskGuess_cons]
      by_cases hab : a = b
      · rw [if_pos hab, if_pos hab,
          pass2_cons_notmiss EXACT exact_ne_miss,
          specSecondPass_cons_notmiss EXACT exact_ne_miss, ih ss ctr]
      · rw [if_neg hab, if_neg hab]
        have hcnt : Multiset.count a (↑ctr : Multiset Char) = ctr.count a :=
          Multiset.coe_count a ctr
        by_cases hc : 0 < ctr.count a
        · rw [pass2_cons_miss_pos _ _ _ _ hc,
            specSecondPass_cons_miss_pos _ _ _ _ (by rw [hcnt]; exact hc),
            Multiset.coe_erase, ih ss (ctr.erase a)]
        · rw [pass2_cons_miss_zero _ _ _ _ hc,
            specSecondPass_cons_miss_zero _ _ _ _ (by rw [hcnt]; exact hc),
            ih ss ctr]

lemma length_specSecondPass :
    ∀ (fb : List Nat) (g : List Char) (m : Multiset Char),
      (specSecondPass fb g m).length = min fb.length g.length := by
  intro fb
  induction fb with
  | nil => intro g m; simp [specSecondPass]
  | cons f fs ih =>
    intro g m
    cases g with
    | nil => simp [specSecondPass]
    | cons c cs =>
      by_cases hf : f = MISS
      · subst hf
        by_cases hm : 0 < m.count c
        · rw [specSecondPass_cons_miss_pos _ _ _ _ hm]
          simp [ih, Nat.succ_min_succ]
        · rw [specSecondPass_cons_miss_zero _ _ _ _ hm]
          simp [ih, Nat.succ_min_succ]
      · rw [specSecondPass_cons_notmiss _ hf]
        simp [ih, Nat.succ_min_succ]

lemma specSecondPass_digits :
    ∀ (fb : List Nat) (g : List Char) (m : Multiset Char),
      (∀ f ∈ fb, f < 3) → ∀ f ∈ specSecondPass fb g m, f < 3 := by
  intro fb
  induction fb with
  | nil => intro g m _ f hf; simp [specSecondPass] at hf
  | cons x fs ih =>
    intro g m hin f hf
    cases g with
    | nil => simp [specSecondPass] at hf
    | cons c cs =>
      have htl : ∀ y ∈ fs, y < 3 := fun y hy => hin y (by simp [hy])
      by_cases hx : x = MISS
      · subst hx
        by_cases hm : 0 < m.count c
        · rw [specSecondPass_cons_miss_pos _ _ _ _ hm] at hf
          rcases List.mem_cons.mp hf with rfl | hf
          · decide
          · exact ih cs (m.erase c) htl f hf
        · rw [specSecondPass_cons_miss_zero _ _ _ _ hm] at hf
          rcases List.mem_cons.mp hf with rfl | hf
          · decide
          · exact ih cs m htl f hf
      · rw [specSecondPass_cons_notmiss _ hx] at hf
        rcases List.mem_cons.mp hf with rfl | hf
        · exact hin f (by simp)
        · exact ih cs m htl f hf

lemma specFirstPass_digits (g s : List Char) :
    ∀ f ∈ specFirstPass g s, f < 3 := by
  induction g generalizing s with
  | nil => cases s <;> simp [specFirstPass]
  | cons a gs ih =>
    cases s with
    | nil => simp [specFirstPass]
    | cons b ss =>
      intro f hf
      rw [specFirstPass_cons] at hf
      rcases List.mem_cons.mp hf with rfl | hf
      · by_cases hab : a = b <;> simp [hab, EXACT, MISS]
      · exact ih ss f hf

lemma length_specFirstPass (g s : List Char) :
    (specFirstPass g s).length = min g.length s.length := by
  simp [specFirstPass]

lemma encode_eq_spec (fb : List Nat) (h : fb.length = 5) :
    encodeFeedback fb = specEncode fb := by
  rcases fb with _ | ⟨a, _ | ⟨b, _ | ⟨c, _ | ⟨d, _ | ⟨e, _ | ⟨f, tl⟩⟩⟩⟩⟩⟩ <;>
    simp_all [encodeFeedback, specEncode, Finset.sum_range_succ] <;> ring

lemma calculate_pattern_eq_encode (g s : String) :
    calculate_pattern g s
      = encodeFeedback (specSecondPass (specFirstPass g.toList s.toList) g.toList
          (specUnconsumed g.toList s.toList)) := by
  rw [calculate_pattern, pass1_eq, specUnconsumed_eq]
  exact congrArg encodeFeedback (pass2_spec g.toList s.toList _)

lemma final_feedback_length (g s : String) (hg : g.length = 5) (hs : s.length = 5) :
    (specSecondPass (specFirstPass g.toList s.toList) g.toList
        (specUnconsumed g.toList s.toList)).length = 5 := by
  rw [length_specSecondPass, length_specFirstPass, toList_length, toList_length,
    hg, hs]
  simp

lemma calculate_pattern_eq_spec (g s : String) (hg : g.length = 5)
    (hs : s.length = 5) : calculate_pattern g s = specPattern g s := by
  rw [calculate_pattern_eq_encode, specPattern,
    encode_eq_spec _ (final_feedback_length g s hg hs)]

lemma calculate_pattern_lt (g s : String) (hg : g.length = 5) (hs : s.length = 5) :
    calculate_pattern g s < 243 := by
  rw [calculate_pattern_eq_encode]
  have hdig := specSecondPass_digits (specFirstPass g.toList s.toList) g.toList
    (specUnconsumed g.toList s.toList) (specFirstPass_digits g.toList s.toList)
  have := encodeFeedback_lt _ hdig
  rw [final_feedback_length g s hg hs] at this
  simpa using this

/-! ### Claim C1 -/

/-- C1: for every pair of 5-letter words, the pattern function (both the
game's `_calculate_pattern` and the matrix generator's `calculate_pattern`)
implements exactly the two-pass duplicate-letter rule — exact matches are
consumed first, then a multiset of the unconsumed secret letters is
decremented left to right for the misplaced marks — and the five
classifications are encoded in base 3, most significant position first. -/
theorem C1_pattern_two_pass (g s : String) (hg : g.length = 5)
    (hs : s.length = 5) :
    calculate_pattern g s = specPattern g s ∧
      generateMatrixCalculatePattern g s = specPattern g s :=
  ⟨calculate_pattern_eq_spec g s hg hs, calculate_pattern_eq_spec g s hg hs⟩

/-- Witness for C1 at the spec's duplicate-letter regression pair. -/
theorem C1_pattern_two_pass_witness :
    calculate_pattern "aabbb" "ababa" = specPattern "aabbb" "ababa" ∧
      generateMatrixCalculatePattern "aabbb" "ababa" = specPattern "aabbb" "ababa" :=
  C1_pattern_two_pass "aabbb" "ababa" (by decide) (by decide)

/-! ### Claim C5 -/

/-- C5: decoding a code below `3^5` into its five base-3 digits (most
significant first) and re-encoding them yields the code back, and the decode
always returns exactly five classifications in {MISS, MISPLACED, EXACT}. -/
theorem C5_decode_encode_roundtrip (c : Nat) (hc : c < 243) :
    encodeFeedback (decode_feedback c) = c ∧ (decode_feedback c).length = 5 ∧
      ∀ d ∈ decode_feedback c, d = MISS ∨ d = MISPLACED ∨ d = EXACT := by
  have h : ∀ n < 243, encodeFeedback (decode_feedback n) = n ∧
      (decode_feedback n).length = 5 ∧
      ∀ d ∈ decode_feedback n, d = MISS ∨ d = MISPLACED ∨ d = EXACT := by decide
  exact h c hc

/-- Witness for C5 at code 200. -/
theorem C5_decode_encode_roundtrip_witness :
    encodeFeedback (decode_feedback 200) = 200 ∧ (decode_feedback 200).length = 5 ∧
      ∀ d ∈ decode_feedback 200, d = MISS ∨ d = MISPLACED ∨ d = EXACT :=
  C5_decode_encode_roundtrip 200 (by decide)

/-! ### Matrix lemmas and claim C2 -/

lemma idxFoldl_not_mem (w : String) :
    ∀ (l : List String) (n acc : Nat), w ∉ l →
      (List.enumFrom n l).foldl (fun acc p => if p.2 = w then p.1 else acc) acc
        = acc := by
  intro l
  induction l with
  | nil => intro n acc _; rfl
  | cons x xs ih =>
    intro n acc hw
    have hx : ¬x = w := fun h => hw (by simp [h])
    simp only [List.enumFrom, List.foldl_cons, if_neg hx]
    exact ih (n + 1) acc (fun h => hw (by simp [h]))

lemma idxFoldl_mem (w : String) :
    ∀ l : List String, w ∈ l → ∀ n acc : Nat,
      ∃ k, (List.enumFrom n l).foldl (fun acc p => if p.2 = w then p.1 else acc) acc
          = n + k ∧ l.get? k = some w := by
  intro l
  induction l with
  | nil => intro h; simp at h
  | cons x xs ih =>
    intro hmem n acc
    by_cases hx : w ∈ xs
    · obtain ⟨k, hk1, hk2⟩ := ih hx (n + 1) (if x = w then n else acc)
      refine ⟨k + 1, ?_, by simpa using hk2⟩
      simp only [List.enumFrom, List.foldl_cons]
      rw [hk1]
      omega
    · have hxw : x = w := by
        rcases List.mem_cons.mp hmem with h | h
        · exact h.symm
        · exact absurd h hx
      refine ⟨0, ?_, by simp [hxw]⟩
      simp only [List.enumFrom, List.foldl_cons, if_pos hxw]
      rw [idxFoldl_not_mem w xs (n + 1) n hx]
      omega

lemma wordToIdx_get? (words : List String) (w : String) (h : w ∈ words) :
    words.get? (wordToIdx words w) = some w := by
  obtain ⟨k, hk1, hk2⟩ := idxFoldl_mem w words h 0 0
  unfold wordToIdx
  rw [List.enum, hk1]
  simpa using hk2

lemma wordToIdx_lt (words : List String) (w : String) (h : w ∈ words) :
    wordToIdx words w < words.length := by
  have := wordToIdx_get? words w h
  exact (List.get?_eq_some.mp this).1

lemma wordToIdx_getD (words : List String) (w : String) (h : w ∈ words) :
    words.getD (wordToIdx words w) "" = w := by
  rw [List.getD_eq_getD_get?, wordToIdx_get? words w h]
  rfl

lemma matrixEntry_words (words : List String) (gi si : Nat)
    (hgi : gi < words.length) (hsi : si < words.length) :
    matrixEntry (generate_pattern_matrix words) gi si
      = calculate_pattern (words.getD gi "") (words.getD si "") % 256 := by
  have h1 : (generate_pattern_matrix words).getD gi []
      = words.map (fun s => calculate_pattern (words.getD gi "") s % 256) := by
    unfold generate_pattern_matrix
    rw [List.getD_eq_getElem _ _ (by simpa using hgi), List.getElem_map,
      List.getD_eq_getElem _ _ hgi]
  unfold matrixEntry
  rw [h1, List.getD_eq_getElem _ _ (by simpa using hsi), List.getElem_map,
    List.getD_eq_getElem _ _ hsi]

lemma matrix_lookup_pattern (words : List String) (h5 : ∀ w ∈ words, w.length = 5)
    (g : String) (hg : g ∈ words) (s : String) (hs : s ∈ words) :
    matrixEntry (generate_pattern_matrix words) (wordToIdx words g)
      (wordToIdx words s) = calculate_pattern g s := by
  rw [matrixEntry_words words _ _ (wordToIdx_lt words g hg) (wordToIdx_lt words s hs),
    wordToIdx_getD words g hg, wordToIdx_getD words s hs]
  exact Nat.mod_eq_of_lt
    (lt_trans (calculate_pattern_lt g s (h5 g hg) (h5 s hs)) (by norm_num))

lemma evaluate_guess_eq_pattern (words : List String)
    (h5 : ∀ w ∈ words, w.length = 5) (g s : String) :
    evaluate_guess words g s = calculate_pattern g s := by
  unfold evaluate_guess
  by_cases hm : g ∈ words ∧ s ∈ words
  · rw [if_pos hm]
    exact matrix_lookup_pattern words h5 g hm.1 s hm.2
  · rw [if_neg hm]

/-- C2: over a 5-letter vocabulary, looking up any ordered pair of indexed
words in the generated pattern matrix returns exactly the codec's pattern,
and `evaluate_guess` returns that pattern both on the matrix-lookup branch
(both words indexed) and on the direct-calculation fallback branch (any
words). -/
theorem C2_matrix_codec_agreement (words : List String)
    (h5 : ∀ w ∈ words, w.length = 5) :
    (∀ g ∈ words, ∀ s ∈ words,
      matrixEntry (generate_pattern_matrix words) (wordToIdx words g)
        (wordToIdx words s) = calculate_pattern g s) ∧
      ∀ g s : String, evaluate_guess words g s = calculate_pattern g s :=
  ⟨fun g hg s hs => matrix_lookup_pattern words h5 g hg s hs,
   fun g s => evaluate_guess_eq_pattern words h5 g s⟩

/-- Witness for C2 on a concrete two-word vocabulary. -/
theorem C2_matrix_codec_agreement_witness :
    (∀ g ∈ ["apple", "raise"], ∀ s ∈ ["apple", "raise"],
      matrixEntry (generate_pattern_matrix ["apple", "raise"])
        (wordToIdx ["apple", "raise"] g) (wordToIdx ["apple", "raise"] s)
        = calculate_pattern g s) ∧
      ∀ g s : String, evaluate_guess ["apple", "raise"] g s = calculate_pattern g s :=
  C2_matrix_codec_agreement ["apple", "raise"] (by decide)

/-! ### Narrowing lemmas, claims C3 and C10 -/

lemma consistentStep_subset (words : List String) (S : List String)
    (p : String × Nat) : consistentStep words S p ⊆ S := by
  intro x hx
  exact List.mem_of_mem_filter hx

lemma updateTrieWords_concat (words S : List String) (h : List (String × Nat))
    (p : String × Nat) :
    updateTrieWords words S (h ++ [p]) = consistentStep words S p := by
  unfold updateTrieWords
  rw [List.getLast?_concat]

lemma foldl_consistent_subset (words : List String) :
    ∀ (h : List (String × Nat)) (S : List String),
      h.foldl (consistentStep words) S ⊆ S := by
  intro h
  induction h with
  | nil => intro S; simp
  | cons p t ih =>
    intro S
    exact fun x hx => consistentStep_subset words S p (ih (consistentStep words S p) hx)

lemma foldl_consistent_length (words : List String) :
    ∀ (h : List (String × Nat)) (S : List String),
      (h.foldl (consistentStep words) S).length ≤ S.length := by
  intro h
  induction h with
  | nil => intro S; simp
  | cons p t ih =>
    intro S
    exact le_trans (ih (consistentStep words S p)) (List.length_filter_le _ S)

lemma mem_consistentStep (words : List String) (S : List String) (p : String × Nat)
    (s : String) (hs : s ∈ S) (he : evaluate_guess words p.1 s = p.2) :
    s ∈ consistentStep words S p :=
  List.mem_filter.mpr ⟨hs, by simp [he]⟩

lemma mem_foldl_consistent (words : List String) :
    ∀ (h : List (String × Nat)) (S : List String) (s : String), s ∈ S →
      (∀ p ∈ h, evaluate_guess words p.1 s = p.2) →
      s ∈ h.foldl (consistentStep words) S := by
  intro h
  induction h with
  | nil => intro S s hs _; simpa using hs
  | cons p t ih =>
    intro S s hs hcons
    exact ih (consistentStep words S p) s
      (mem_consistentStep words S p s hs (hcons p (by simp)))
      (fun q hq => hcons q (by simp [hq]))

/-- C3: narrowing is monotone and never discards the secret.  For any
narrowing step on a non-empty history, the candidate set after
`_update_currently_consistent_words` (and after the per-turn filter of
`_update_trie`, for any history) is a subset of — hence no larger than — the
set before; and any secret `s` whose codec patterns agree with every recorded
`(guess, code)` pair of the history is retained by both updates. -/
theorem C3_narrowing_monotone_retains_secret (words S : List String)
    (h : List (String × Nat)) (s : String) (h5 : ∀ w ∈ words, w.length = 5) :
    (h ≠ [] → updateConsistent words S h ⊆ S ∧
      (updateConsistent words S h).length ≤ S.length) ∧
    (updateTrieWords words S h ⊆ S ∧
      (updateTrieWords words S h).length ≤ S.length) ∧
    (s ∈ S → S ⊆ words → (∀ p ∈ h, p.2 = calculate_pattern p.1 s) →
      s ∈ updateConsistent words S h ∧ s ∈ updateTrieWords words S h) := by
  have heval : ∀ p : String × Nat, p.2 = calculate_pattern p.1 s →
      evaluate_guess words p.1 s = p.2 := by
    intro p hp
    rw [evaluate_guess_eq_pattern words h5, hp]
  refine ⟨?_, ⟨?_, ?_⟩, ?_⟩
  · intro hne
    rw [updateConsistent, if_neg hne]
    exact ⟨foldl_consistent_subset words h S, foldl_consistent_length words h S⟩
  · rw [updateTrieWords]
    cases h.getLast? with
    | none => exact fun x hx => hx
    | some p => exact consistentStep_subset words S p
  · rw [updateTrieWords]
    cases h.getLast? with
    | none => exact le_refl _
    | some p => exact List.length_filter_le _ S
  · intro hs hSw hcons
    constructor
    · rw [updateConsistent]
      by_cases hne : h = []
      · rw [if_pos hne]; exact hSw hs
      · rw [if_neg hne]
        exact mem_foldl_consistent words h S s hs
          (fun p hp => heval p (hcons p hp))
    · rw [updateTrieWords]
      cases hlast : h.getLast? with
      | none => exact hs
      | some p =>
        exact mem_consistentStep words S p s hs
          (heval p (hcons p (List.mem_of_mem_getLast? hlast)))

/-- Witness for C3 on a concrete vocabulary, history and retained secret. -/
theorem C3_narrowing_monotone_retains_secret_witness :
    (([("raise", 29)] : List (String × Nat)) ≠ [] →
      updateConsistent ["apple", "raise"] ["apple", "raise"] [("raise", 29)]
          ⊆ ["apple", "raise"] ∧
        (updateConsistent ["apple", "raise"] ["apple", "raise"] [("raise", 29)]).length
          ≤ (["apple", "raise"] : List String).length) ∧
    (updateTrieWords ["apple", "raise"] ["apple", "raise"] [("raise", 29)]
        ⊆ ["apple", "raise"] ∧
      (updateTrieWords ["apple", "raise"] ["apple", "raise"] [("raise", 29)]).length
        ≤ (["apple", "raise"] : List String).length) ∧
    ("apple" ∈ (["apple", "raise"] : List String) →
      (["apple", "raise"] : List String) ⊆ ["apple", "raise"] →
      (∀ p ∈ ([("raise", 29)] : List (String × Nat)),
        p.2 = calculate_pattern p.1 "apple") →
      "apple" ∈ updateConsistent ["apple", "raise"] ["apple", "raise"] [("raise", 29)] ∧
        "apple" ∈ updateTrieWords ["apple", "raise"] ["apple", "raise"] [("raise", 29)]) :=
  C3_narrowing_monotone_retains_secret ["apple", "raise"] ["apple", "raise"]
    [("raise", 29)] "apple" (by decide)

lemma foldl_filter_eq_filter_all (words : List String) :
    ∀ (h : List (String × Nat)) (S : List String),
      h.foldl (consistentStep words) S
        = S.filter (fun w => h.all (fun p => evaluate_guess words p.1 w == p.2)) := by
  intro h
  induction h with
  | nil => intro S; simp
  | cons p t ih =>
    intro S
    rw [List.foldl_cons, ih]
    unfold consistentStep
    rw [List.filter_filter]
    apply List.filter_congr
    intro w _
    simp only [List.all_cons]
    cases hp : (evaluate_guess words p.1 w == p.2) <;> simp

lemma filterHistory_eq (words : List String) (h : List (String × Nat)) :
    filterHistory words h
      = words.filter (fun w => h.all (fun p => evaluate_guess words p.1 w == p.2)) :=
  foldl_filter_eq_filter_all words h words

lemma incRunConsistentAux_eq (words : List String) :
    ∀ rev : List (String × Nat),
      incRunConsistentAux words rev = filterHistory words rev.reverse := by
  intro rev
  induction rev with
  | nil => simp [incRunConsistentAux, filterHistory]
  | cons p r ih =>
    rw [incRunConsistentAux, ih, List.reverse_cons, updateConsistent,
      if_neg (by simp), foldl_filter_eq_filter_all, filterHistory_eq,
      filterHistory_eq, List.filter_filter]
    apply List.filter_congr
    intro w _
    simp only [List.all_append, List.all_cons, List.all_nil, Bool.and_true]
    cases hx : r.reverse.all (fun p => evaluate_guess words p.1 w == p.2) <;> simp

lemma incRunTrieAux_eq (words : List String) :
    ∀ rev : List (String × Nat),
      incRunTrieAux words rev = filterHistory words rev.reverse := by
  intro rev
  induction rev with
  | nil => simp [incRunTrieAux, filterHistory]
  | cons p r ih =>
    rw [incRunTrieAux, ih, List.reverse_cons, updateTrieWords_concat,
      filterHistory_eq, filterHistory_eq]
    unfold consistentStep
    rw [List.filter_filter]
    apply List.filter_congr
    intro w _
    simp only [List.all_append, List.all_cons, List.all_nil, Bool.and_true]
    cases hx : r.reverse.all (fun p => evaluate_guess words p.1 w == p.2) <;> simp

/-- C10: processing a strictly growing history incrementally — through
`_update_currently_consistent_words` (which re-filters its current set by
every pair) or through `_update_trie` (which filters by the last pair only) —
leaves the solver with exactly the candidate list obtained by filtering the
full vocabulary from scratch by every pair of the full history; hence any
selector computed from the candidate state gives the result of a
from-scratch replay. -/
theorem C10_incremental_equals_replay (words : List String)
    (h : List (String × Nat)) :
    incRunConsistent words h = filterHistory words h ∧
      incRunTrie words h = filterHistory words h ∧
      ∀ pick : List String → String,
        pick (incRunConsistent words h) = pick (filterHistory words h) ∧
          pick (incRunTrie words h) = pick (filterHistory words h) := by
  have h1 : incRunConsistent words h = filterHistory words h := by
    rw [incRunConsistent, incRunConsistentAux_eq, List.reverse_reverse]
  have h2 : incRunTrie words h = filterHistory words h := by
    rw [incRunTrie, incRunTrieAux_eq, List.reverse_reverse]
  exact ⟨h1, h2, fun pick => ⟨congrArg pick h1, congrArg pick h2⟩⟩

/-! ### Entropy lemmas and claim C4 -/

lemma getD_mem (words : List String) (i : Nat) (hi : i < words.length) :
    words.getD i "" ∈ words := by
  rw [List.getD_eq_getElem _ _ hi]
  exact List.getElem_mem hi

lemma matrixEntry_eq_pattern (words : List String)
    (h5 : ∀ w ∈ words, w.length = 5) (gi si : Nat) (hgi : gi < words.length)
    (hsi : si < words.length) :
    matrixEntry (generate_pattern_matrix words) gi si
      = calculate_pattern (words.getD gi "") (words.getD si "") := by
  rw [matrixEntry_words words gi si hgi hsi]
  exact Nat.mod_eq_of_lt
    (lt_trans (calculate_pattern_lt _ _ (h5 _ (getD_mem words gi hgi))
      (h5 _ (getD_mem words si hsi))) (by norm_num))

lemma vecCount_eq_codecCount (words : List String)
    (h5 : ∀ w ∈ words, w.length = 5) (gi : Nat) (hgi : gi < words.length)
    (candIdx : List Nat) (hidx : ∀ i ∈ candIdx, i < words.length) (c : Nat) :
    vecCount words gi candIdx c
      = codecCount (words.getD gi "") (candIdx.map (fun si => words.getD si "")) c := by
  unfold vecCount codecCount
  rw [List.filter_map, List.length_map]
  apply congrArg
  apply List.filter_congr
  intro si hsi
  simp only [Function.comp]
  rw [matrixEntry_eq_pattern words h5 gi si hgi (hidx si hsi)]

lemma slowCount_eq_codecCount (words : List String)
    (h5 : ∀ w ∈ words, w.length = 5) (g : String) (cands : List String) (c : Nat) :
    slowCount words g cands c = codecCount g cands c := by
  unfold slowCount codecCount
  apply congrArg
  apply List.filter_congr
  intro s _
  rw [evaluate_guess_eq_pattern words h5]

lemma codecCount_eq_zero_of_not_observed (words : List String)
    (h5 : ∀ w ∈ words, w.length = 5) (g : String) (cands : List String) (c : Nat)
    (hc : c ∉ (cands.map (evaluate_guess words g)).toFinset) :
    codecCount g cands c = 0 := by
  by_contra h0
  obtain ⟨s, hsmem⟩ := List.exists_mem_of_length_pos (Nat.pos_of_ne_zero h0)
  obtain ⟨hs, hpat⟩ := List.mem_filter.mp hsmem
  apply hc
  rw [List.mem_toFinset]
  refine List.mem_map.mpr ⟨s, hs, ?_⟩
  rw [evaluate_guess_eq_pattern words h5]
  exact eq_of_beq hpat

lemma observed_subset_range (words : List String)
    (h5 : ∀ w ∈ words, w.length = 5) (g : String) (hg : g ∈ words)
    (cands : List String) (hcands : ∀ s ∈ cands, s ∈ words) :
    (cands.map (evaluate_guess words g)).toFinset ⊆ Finset.range 243 := by
  intro c hc
  rw [List.mem_toFinset] at hc
  obtain ⟨s, hs, rfl⟩ := List.mem_map.mp hc
  rw [Finset.mem_range, evaluate_guess_eq_pattern words h5]
  exact calculate_pattern_lt g s (h5 g hg) (h5 s (hcands s hs))

/-- C4: for a guess indexed in a 5-letter vocabulary and a non-empty
candidate set (given by its matrix indices), the vectorized batch entropy
equals the spec's Shannon entropy `-Σ_code p(code)·log2 p(code)` of the
codec-pattern distribution over the candidates, and equals the naive
per-word fallback computation. -/
theorem C4_entropy_vectorized_matches_shannon_and_naive (words : List String)
    (h5 : ∀ w ∈ words, w.length = 5) (candIdx : List Nat)
    (hidx : ∀ i ∈ candIdx, i < words.length) (hne : candIdx ≠ [])
    (gi : Nat) (hgi : gi < words.length) :
    entropiesVectorized words candIdx gi
        = shannonEntropy (words.getD gi "") (candIdx.map (fun si => words.getD si ""))
      ∧ entropiesVectorized words candIdx gi
        = entropyNaiveSlow words (words.getD gi "")
            (candIdx.map (fun si => words.getD si "")) := by
  have hlen : (candIdx.map (fun si => words.getD si "")).length = candIdx.length :=
    List.length_map _ _
  have hcnt := vecCount_eq_codecCount words h5 gi hgi candIdx hidx
  have hvec : entropiesVectorized words candIdx gi
      = ∑ c in Finset.range 243,
          -(((codecCount (words.getD gi "") (candIdx.map (fun si => words.getD si "")) c : ℝ)
              / ((candIdx.map (fun si => words.getD si "")).length : ℝ)) *
            Real.logb 2
              ((codecCount (words.getD gi "") (candIdx.map (fun si => words.getD si "")) c : ℝ)
                / ((candIdx.map (fun si => words.getD si "")).length : ℝ))) := by
    unfold entropiesVectorized
    exact Finset.sum_congr rfl (fun c _ => by rw [hcnt c, hlen])
  constructor
  · rw [hvec]
    unfold shannonEntropy
    rw [← Finset.sum_neg_distrib]
  · rw [hvec]
    unfold entropyNaiveSlow
    have hsub := observed_subset_range words h5 (words.getD gi "")
      (getD_mem words gi hgi) (candIdx.map (fun si => words.getD si ""))
      (fun s hs => by
        obtain ⟨si, hsi, rfl⟩ := List.mem_map.mp hs
        exact getD_mem words si (hidx si hsi))
    rw [← Finset.sum_subset hsub]
    · exact Finset.sum_congr rfl (fun c _ => by
        rw [slowCount_eq_codecCount words h5, mul_neg])
    · intro c _ hc
      rw [codecCount_eq_zero_of_not_observed words h5 _ _ _ hc]
      simp

/-- Witness for C4 on a concrete two-word vocabulary. -/
theorem C4_entropy_vectorized_matches_shannon_and_naive_witness :
    entropiesVectorized ["aaaaa", "bbbbb"] [0, 1] 0
        = shannonEntropy ((["aaaaa", "bbbbb"] : List String).getD 0 "")
            (([0, 1] : List Nat).map (fun si => (["aaaaa", "bbbbb"] : List String).getD si ""))
      ∧ entropiesVectorized ["aaaaa", "bbbbb"] [0, 1] 0
        = entropyNaiveSlow ["aaaaa", "bbbbb"] ((["aaaaa", "bbbbb"] : List String).getD 0 "")
            (([0, 1] : List Nat).map (fun si => (["aaaaa", "bbbbb"] : List String).getD si "")) :=
  C4_entropy_vectorized_matches_shannon_and_naive ["aaaaa", "bbbbb"] (by decide)
    [0, 1] (by decide) (by decide) 0 (by decide)

/-! ### Entropy-cache lemmas (ProgressiveEntropySolver) -/

section EntropyCacheLemmas

variable {α : Type} [LinearOrder α] [Zero α]

lemma find?_key_append_of_none (l : List (String × α)) (w : String) (v : α)
    (h : l.find? (fun p => p.1 == w) = none) :
    (l ++ [(w, v)]).find? (fun p => p.1 == w) = some (w, v) := by
  induction l with
  | nil => simp
  | cons q t ih =>
    by_cases hq : (q.1 == w) = true
    · have hsome : (q :: t).find? (fun p => p.1 == w) = some q := by simp [hq]
      rw [hsome] at h
      cases h
    · have hskip : (q :: t).find? (fun p => p.1 == w)
          = t.find? (fun p => p.1 == w) := by simp [hq]
      have h' : t.find? (fun p => p.1 == w) = none := by rwa [hskip] at h
      have hskip2 : (q :: (t ++ [(w, v)])).find? (fun p => p.1 == w)
          = (t ++ [(w, v)]).find? (fun p => p.1 == w) := by simp [hq]
      rw [List.cons_append, hskip2]
      exact ih h'

lemma cacheLookup_append_of_none (cache : List (String × α)) (w : String) (v : α)
    (h : cacheLookup cache w = none) :
    cacheLookup (cache ++ [(w, v)]) w = some v := by
  unfold cacheLookup at h ⊢
  have hf : cache.find? (fun p => p.1 == w) = none := by
    cases hc : cache.find? (fun p => p.1 == w) with
    | none => rfl
    | some p => rw [hc] at h; simp at h
  rw [find?_key_append_of_none cache w v hf]
  rfl

lemma cacheLookup_calc_self (H : String → α) (cache : List (String × α))
    (w : String) :
    ∃ v, cacheLookup (calcEntropyCached H cache w) w = some v := by
  unfold calcEntropyCached
  cases hl : cacheLookup cache w with
  | some v => exact ⟨v, by rw [hl]⟩
  | none => exact ⟨H w, by rw [cacheLookup_append_of_none cache w (H w) hl]⟩

lemma mem_calcEntropyCached (H : String → α) (cache : List (String × α))
    (w : String) (p : String × α) (hp : p ∈ calcEntropyCached H cache w) :
    p ∈ cache ∨ p = (w, H w) := by
  unfold calcEntropyCached at hp
  cases hl : cacheLookup cache w with
  | some v => rw [hl] at hp; exact Or.inl hp
  | none =>
    rw [hl] at hp
    rcases List.mem_append.mp hp with h | h
    · exact Or.inl h
    · exact Or.inr (by simpa using h)

lemma cache_values_foldl (H : String → α) :
    ∀ (ws : List String) (init : List (String × α)),
      (∀ p ∈ init, p.2 = H p.1) →
      ∀ p ∈ ws.foldl (calcEntropyCached H) init, p.2 = H p.1 := by
  intro ws
  induction ws with
  | nil => intro init hinit p hp; exact hinit p hp
  | cons w t ih =>
    intro init hinit p hp
    refine ih (calcEntropyCached H init w) ?_ p hp
    intro q hq
    rcases mem_calcEntropyCached H init w q hq with h | h
    · exact hinit q h
    · rw [h]

lemma cache_values_turn (H : String → α) (sampled : List String) (greedy : String) :
    ∀ p ∈ computeTurnCache H sampled greedy, p.2 = H p.1 := by
  intro p hp
  unfold computeTurnCache at hp
  rcases mem_calcEntropyCached H _ greedy p hp with h | h
  · exact cache_values_foldl H sampled [] (by simp) p h
  · rw [h]

lemma cacheLookup_none_iff (cache : List (String × α)) (w : String) :
    cacheLookup cache w = none ↔ ∀ p ∈ cache, p.1 ≠ w := by
  unfold cacheLookup
  constructor
  · intro h p hp
    cases hf : cache.find? (fun p => p.1 == w) with
    | some q => rw [hf] at h; simp at h
    | none =>
      have := List.find?_eq_none.mp hf p hp
      simpa using this
  · intro h
    rw [List.find?_eq_none.mpr (fun p hp => by simpa using h p hp)]
    rfl

lemma cacheKeys_nodup_calc (H : String → α) (cache : List (String × α))
    (w : String) (hnd : (cache.map Prod.fst).Nodup) :
    ((calcEntropyCached H cache w).map Prod.fst).Nodup := by
  unfold calcEntropyCached
  cases hl : cacheLookup cache w with
  | some v => exact hnd
  | none =>
    rw [List.map_append]
    simp only [List.map_cons, List.map_nil]
    rw [List.nodup_append]
    refine ⟨hnd, by simp, ?_⟩
    intro x hx
    simp only [List.mem_singleton]
    intro hxw
    obtain ⟨p, hp, rfl⟩ := List.mem_map.mp hx
    exact (cacheLookup_none_iff cache w).mp hl p hp hxw

lemma cacheKeys_nodup_turn (H : String → α) (sampled : List String)
    (greedy : String) :
    ((computeTurnCache H sampled greedy).map Prod.fst).Nodup := by
  unfold computeTurnCache
  apply cacheKeys_nodup_calc
  have : ∀ (ws : List String) (init : List (String × α)),
      (init.map Prod.fst).Nodup →
      ((ws.foldl (calcEntropyCached H) init).map Prod.fst).Nodup := by
    intro ws
    induction ws with
    | nil => intro init h; exact h
    | cons w t ih =>
      intro init h
      exact ih (calcEntropyCached H init w) (cacheKeys_nodup_calc H init w h)
  exact this sampled [] (by simp)

lemma cacheLookup_of_mem_nodup (cache : List (String × α)) (w : String) (v : α)
    (hnd : (cache.map Prod.fst).Nodup) (hmem : (w, v) ∈ cache) :
    cacheLookup cache w = some v := by
  induction cache with
  | nil => simp at hmem
  | cons q t ih =>
    rw [List.map_cons, List.nodup_cons] at hnd
    rcases List.mem_cons.mp hmem with h | h
    · unfold cacheLookup
      rw [List.find?_cons, ← h]
      simp
    · have hq : q.1 ≠ w := by
        intro hqw
        exact hnd.1 (List.mem_map.mpr ⟨(w, v), h, by rw [hqw]⟩)
      unfold cacheLookup
      rw [List.find?_cons]
      have : (q.1 == w) = false := by simpa using hq
      rw [this]
      exact ih hnd.2 h

lemma mem_of_cacheLookup (cache : List (String × α)) (w : String) (v : α)
    (h : cacheLookup cache w = some v) : (w, v) ∈ cache := by
  unfold cacheLookup at h
  cases hf : cache.find? (fun p => p.1 == w) with
  | none => rw [hf] at h; simp at h
  | some p =>
    rw [hf] at h
    have hp := List.find?_some hf
    have hmem := List.mem_of_find?_eq_some hf
    have h1 : p.1 = w := by simpa using hp
    have h2 : p.2 = v := by simpa using h
    have : p = (w, v) := Prod.ext h1 h2
    rw [this] at hmem
    exact hmem

lemma bestCachedAux (l : List (String × α)) :
    ∀ (acc : Option (String × α)) (q : String × α),
      l.foldl (fun acc p =>
        match acc with
        | none => some p
        | some q => if q.2 < p.2 then some p else acc) acc = some q →
      (q ∈ l ∨ acc = some q) ∧ (∀ p ∈ l, p.2 ≤ q.2) ∧
        ∀ a, acc = some a → a.2 ≤ q.2 := by
  induction l with
  | nil =>
    intro acc q h
    simp only [List.foldl_nil] at h
    exact ⟨Or.inr h, by simp, fun a ha => by rw [ha] at h; cases h; exact le_refl _⟩
  | cons p t ih =>
    intro acc q h
    rw [List.foldl_cons] at h
    cases acc with
    | none =>
      obtain ⟨hq, hle, hacc⟩ := ih (some p) q h
      refine ⟨?_, ?_, by simp⟩
      · rcases hq with hq | hq
        · exact Or.inl (List.mem_cons_of_mem p hq)
        · exact Or.inl (by simp [Option.some_inj.mp hq])
      · intro x hx
        rcases List.mem_cons.mp hx with rfl | hx
        · exact hacc x rfl
        · exact hle x hx
    | some a =>
      have hredux : (match some a with
          | none => some p
          | some q => if q.2 < p.2 then some p else some a)
          = if a.2 < p.2 then some p else some a := rfl
      rw [hredux] at h
      by_cases hlt : a.2 < p.2
      · rw [if_pos hlt] at h
        obtain ⟨hq, hle, hacc⟩ := ih (some p) q h
        refine ⟨?_, ?_, ?_⟩
        · rcases hq with hq | hq
          · exact Or.inl (List.mem_cons_of_mem p hq)
          · exact Or.inl (by simp [Option.some_inj.mp hq])
        · intro x hx
          rcases List.mem_cons.mp hx with rfl | hx
          · exact hacc x rfl
          · exact hle x hx
        · intro b hb
          cases hb
          exact le_trans (le_of_lt hlt) (hacc p rfl)
      · rw [if_neg hlt] at h
        obtain ⟨hq, hle, hacc⟩ := ih (some a) q h
        refine ⟨?_, ?_, ?_⟩
        · rcases hq with hq | hq
          · exact Or.inl (List.mem_cons_of_mem p hq)
          · exact Or.inr hq
        · intro x hx
          rcases List.mem_cons.mp hx with rfl | hx
          · exact le_trans (le_of_not_lt hlt) (hacc a rfl)
          · exact hle x hx
        · exact hacc
  
lemma bestCached_isSome (cache : List (String × α)) (hne : cache ≠ []) :
    ∃ q, bestCached cache = some q := by
  have haux : ∀ (l : List (String × α)) (acc : String × α),
      ∃ q, l.foldl (fun acc p =>
        match acc with
        | none => some p
        | some q => if q.2 < p.2 then some p else acc) (some acc) = some q := by
    intro l
    induction l with
    | nil => intro acc; exact ⟨acc, rfl⟩
    | cons p t ih =>
      intro acc
      rw [List.foldl_cons]
      by_cases hlt : acc.2 < p.2
      · simpa [hlt] using ih p
      · simpa [hlt] using ih acc
  cases cache with
  | nil => exact absurd rfl hne
  | cons p t =>
    unfold bestCached
    rw [List.foldl_cons]
    exact haux t p

lemma finalSelection_attains_max (cache : List (String × α)) (greedy : String)
    (gv : α) (hg : cacheLookup cache greedy = some gv)
    (hnd : (cache.map Prod.fst).Nodup) :
    (∃ rv, cacheLookup cache (finalSelection cache greedy) = some rv ∧
      ∀ p ∈ cache, p.2 ≤ rv) ∧
    (finalSelection cache greedy = greedy ∨
      ∃ q, bestCached cache = some q ∧ finalSelection cache greedy = q.1 ∧
        gv < q.2) := by
  have hne : cache ≠ [] := by
    intro hnil
    rw [hnil] at hg
    simp [cacheLookup] at hg
  obtain ⟨q, hb⟩ := bestCached_isSome cache hne
  obtain ⟨hqmem, hle, _⟩ := bestCachedAux cache none q hb
  have hqmem : q ∈ cache := by
    rcases hqmem with h | h
    · exact h
    · simp at h
  have hfs : finalSelection cache greedy = if gv < q.2 then q.1 else greedy := by
    simp only [finalSelection, hg, hb, Option.getD_some]
  by_cases hlt : gv < q.2
  · rw [hfs, if_pos hlt]
    refine ⟨⟨q.2, ?_, hle⟩, Or.inr ⟨q, hb, rfl, hlt⟩⟩
    exact cacheLookup_of_mem_nodup cache q.1 q.2 hnd hqmem
  · rw [hfs, if_neg hlt]
    refine ⟨⟨gv, hg, ?_⟩, Or.inl rfl⟩
    intro p hp
    exact le_trans (hle p hp) (le_of_not_lt hlt)

end EntropyCacheLemmas

/-! ### Claim C9 -/

/-- C9: on every turn of the progressive entropy solver with more than one
candidate, the returned word is the better of the greedily constructed word
and the best word recorded in the turn's entropy cache — equivalently its
cached entropy attains the maximum over every word cached during the turn.
The sampled words and the constructed greedy word are universally
quantified, covering every outcome of the randomized sampling; the cache
values are the real entropies computed by `calculate_entropy`
(`progTurnEntropy`). -/
theorem C9_progressive_final_selection_max (words S : List String) (fg : String)
    (candIdx : List Nat) (cands sampled : List String) (greedy : String)
    (history : List (String × Nat)) (hne : history ≠ [])
    (c1 c2 : String) (rest : List String)
    (hcands : updateTrieWords words S history = c1 :: c2 :: rest) :
    progPickGuess words S fg (progTurnEntropy words candIdx cands) sampled greedy
        history
      = finalSelection
          (computeTurnCache (progTurnEntropy words candIdx cands) sampled greedy)
          greedy
    ∧ (∃ rv, cacheLookup
          (computeTurnCache (progTurnEntropy words candIdx cands) sampled greedy)
          (progPickGuess words S fg (progTurnEntropy words candIdx cands) sampled
            greedy history) = some rv ∧
        ∀ p ∈ computeTurnCache (progTurnEntropy words candIdx cands) sampled greedy,
          p.2 ≤ rv)
    ∧ (∀ p ∈ computeTurnCache (progTurnEntropy words candIdx cands) sampled greedy,
        p.2 = progTurnEntropy words candIdx cands p.1)
    ∧ (progPickGuess words S fg (progTurnEntropy words candIdx cands) sampled
          greedy history = greedy ∨
        ∃ q, bestCached
            (computeTurnCache (progTurnEntropy words candIdx cands) sampled greedy)
            = some q ∧
          progPickGuess words S fg (progTurnEntropy words candIdx cands) sampled
            greedy history = q.1 ∧
          (cacheLookup
              (computeTurnCache (progTurnEntropy words candIdx cands) sampled greedy)
              greedy).getD 0 < q.2) := by
  have hpg : progPickGuess words S fg (progTurnEntropy words candIdx cands) sampled
      greedy history
      = finalSelection
          (computeTurnCache (progTurnEntropy words candIdx cands) sampled greedy)
          greedy := by
    simp only [progPickGuess, if_neg hne, hcands]
  obtain ⟨gv, hgv⟩ := cacheLookup_calc_self (progTurnEntropy words candIdx cands)
    (sampled.foldl (calcEntropyCached (progTurnEntropy words candIdx cands)) [])
    greedy
  have hgv2 : cacheLookup
      (computeTurnCache (progTurnEntropy words candIdx cands) sampled greedy)
      greedy = some gv := hgv
  have hnd := cacheKeys_nodup_turn (progTurnEntropy words candIdx cands) sampled
    greedy
  obtain ⟨⟨rv, hrv, hmax⟩, hdisj⟩ := finalSelection_attains_max
    (computeTurnCache (progTurnEntropy words candIdx cands) sampled greedy)
    greedy gv hgv2 hnd
  refine ⟨hpg, ⟨rv, by rw [hpg]; exact hrv, hmax⟩,
    cache_values_turn (progTurnEntropy words candIdx cands) sampled greedy, ?_⟩
  rcases hdisj with h | ⟨q, hb, hq, hlt⟩
  · left
    rw [hpg, h]
  · right
    refine ⟨q, hb, by rw [hpg, hq], ?_⟩
    rw [hgv2]
    simpa using hlt

/-- Witness for C9 on a concrete turn with two candidates. -/
theorem C9_progressive_final_selection_max_witness :
    progPickGuess ["apple", "raise"] ["apple", "raise"] "tares"
        (progTurnEntropy ["apple", "raise"] [0, 1] ["apple", "raise"]) ["raise"]
        "apple" [("zzzzz", 0)]
      = finalSelection
          (computeTurnCache
            (progTurnEntropy ["apple", "raise"] [0, 1] ["apple", "raise"])
            ["raise"] "apple")
          "apple"
    ∧ (∃ rv, cacheLookup
          (computeTurnCache
            (progTurnEntropy ["apple", "raise"] [0, 1] ["apple", "raise"])
            ["raise"] "apple")
          (progPickGuess ["apple", "raise"] ["apple", "raise"] "tares"
            (progTurnEntropy ["apple", "raise"] [0, 1] ["apple", "raise"])
            ["raise"] "apple" [("zzzzz", 0)]) = some rv ∧
        ∀ p ∈ computeTurnCache
            (progTurnEntropy ["apple", "raise"] [0, 1] ["apple", "raise"])
            ["raise"] "apple",
          p.2 ≤ rv)
    ∧ (∀ p ∈ computeTurnCache
          (progTurnEntropy ["apple", "raise"] [0, 1] ["apple", "raise"])
          ["raise"] "apple",
        p.2 = progTurnEntropy ["apple", "raise"] [0, 1] ["apple", "raise"] p.1)
    ∧ (progPickGuess ["apple", "raise"] ["apple", "raise"] "tares"
          (progTurnEntropy ["apple", "raise"] [0, 1] ["apple", "raise"])
          ["raise"] "apple" [("zzzzz", 0)] = "apple" ∨
        ∃ q, bestCached
            (computeTurnCache
              (progTurnEntropy ["apple", "raise"] [0, 1] ["apple", "raise"])
              ["raise"] "apple")
            = some q ∧
          progPickGuess ["apple", "raise"] ["apple", "raise"] "tares"
            (progTurnEntropy ["apple", "raise"] [0, 1] ["apple", "raise"])
            ["raise"] "apple" [("zzzzz", 0)] = q.1 ∧
          (cacheLookup
              (computeTurnCache
                (progTurnEntropy ["apple", "raise"] [0, 1] ["apple", "raise"])
                ["raise"] "apple")
              "apple").getD 0 < q.2) :=
  C9_progressive_final_selection_max ["apple", "raise"] ["apple", "raise"] "tares"
    [0, 1] ["apple", "raise"] ["raise"] "apple" [("zzzzz", 0)] (by decide)
    "apple" "raise" [] (by decide)

/-! ### Single-candidate lemmas and claim C6 -/

lemma entPickGuess_single (words alreadyUsed S : List String) (fg : String)
    (history : List (String × Nat)) (hne : history ≠ []) (w : String)
    (hcands : updateConsistent words S history = [w]) :
    entPickGuess words alreadyUsed S fg history = w := by
  simp only [entPickGuess, if_neg hne, hcands]

lemma progPickGuess_single {α : Type} [LinearOrder α] [Zero α]
    (words S : List String) (fg : String) (H : String → α)
    (sampled : List String) (greedy : String) (history : List (String × Nat))
    (hne : history ≠ []) (w : String)
    (hcands : updateTrieWords words S history = [w]) :
    progPickGuess words S fg H sampled greedy history = w := by
  simp only [progPickGuess, if_neg hne, hcands]
  simp [finalSelection, calcEntropyCached, cacheLookup, bestCached, List.find?,
    lt_irrefl]

lemma insert_empty_chain (w : String) :
    ∀ (cs : List Char) (d d0 : Nat) (c : Char),
      insertAux w cs d (TrieNode.mk c d0 [] false none) = chainNode w c d0 d cs := by
  intro cs
  induction cs with
  | nil => intro d d0 c; rfl
  | cons ch rest ih =>
    intro d d0 c
    simp [insertAux, lookupChild, assocSet, chainNode, ih]

lemma buildTrie_single (w : String) (h5 : w.length = 5) :
    buildTrie [w] = chainNode w ' ' 0 1 w.toList := by
  unfold buildTrie insertWord emptyRoot
  rw [List.foldl_cons, List.foldl_nil, if_pos h5]
  exact insert_empty_chain w w.toList 1 0 ' '

lemma dfsLoop_chain (w : String) :
    ∀ (cs : List Char) (c : Char) (d0 dn : Nat) (path : List String)
      (rest : List (TrieNode × List String)) (n : Nat),
      (dfsLoop ((chainNode w c d0 dn cs, path) :: rest) n).2.1 = some w := by
  intro cs
  induction cs with
  | nil =>
    intro c d0 dn path rest n
    rw [dfsLoop]
    simp [chainNode, TrieNode.is_word, TrieNode.word]
  | cons ch rest' ih =>
    intro c d0 dn path rest n
    rw [dfsLoop]
    have hw : (chainNode w c d0 dn (ch :: rest')).is_word = false := rfl
    rw [hw]
    have hpush : pushEntries (chainNode w c d0 dn (ch :: rest')) path rest
        = (chainNode w ch dn (dn + 1) rest',
            if (chainNode w c d0 dn (ch :: rest')).depth > 0
            then path ++ [String.singleton ch] else [String.singleton ch]) :: rest := by
      simp [pushEntries, chainNode, TrieNode.children, sortChildrenDesc,
        List.insertionSort]
    simp only [Bool.false_eq_true, if_false, hpush]
    exact ih ch dn (dn + 1) _ rest (n + 1)

lemma dfsPickGuess_single (words S : List String) (history : List (String × Nat))
    (w : String) (hcands : updateTrieWords words S history = [w])
    (h5 : w.length = 5) : dfsPickGuess words S history = w := by
  simp only [dfsPickGuess, hcands]
  rw [buildTrie_single w h5]
  have hdfs : (dfs_search (chainNode w ' ' 0 1 w.toList)).2.1 = some w := by
    unfold dfs_search
    exact dfsLoop_chain w w.toList ' ' 0 1 [] [] 0
  rcases hds : dfs_search (chainNode w ' ' 0 1 w.toList) with ⟨p, ow, n⟩
  rw [hds] at hdfs
  simp only at hdfs
  rw [hdfs]

lemma greedyGo_chain (heur : Nat → Char → Nat) (w : String) :
    ∀ (cs : List Char) (c : Char) (d0 dn : Nat) (acc : String) (i : Nat),
      greedyGo heur cs.length i (chainNode w c d0 dn cs) acc
        = some (String.mk (acc.data ++ cs)) := by
  intro cs
  induction cs with
  | nil =>
    intro c d0 dn acc i
    simp [greedyGo]
  | cons ch rest ih =>
    intro c d0 dn acc i
    have hchars : (chainNode w c d0 dn (ch :: rest)).children.map Prod.fst = [ch] :=
      rfl
    simp only [List.length_cons, greedyGo, hchars, argmaxKeyFirst, List.foldl_cons,
      List.foldl_nil]
    have hchild : (lookupChild (chainNode w c d0 dn (ch :: rest)).children ch).getD
        emptyRoot = chainNode w ch dn (dn + 1) rest := by
      simp [chainNode, TrieNode.children, lookupChild]
    rw [hchild, ih ch dn (dn + 1) (acc.push ch) (i + 1)]
    have : (acc.push ch).data = acc.data ++ [ch] := rfl
    simp [this]

lemma hillClimb_single (words S : List String) (history : List (String × Nat))
    (w : String) (hcands : updateTrieWords words S history = [w])
    (h5 : w.length = 5) :
    hillClimbingPickGuess words S history = w ∧
      kbHillClimbingPickGuess words S history = w := by
  have hlen : w.toList.length = 5 := by rw [toList_length, h5]
  have hgo : ∀ heur : Nat → Char → Nat,
      greedyGo heur 5 0 (buildTrie [w]) "" = some w := by
    intro heur
    rw [buildTrie_single w h5, ← hlen, greedyGo_chain heur w w.toList ' ' 0 1 "" 0]
    rfl
  constructor
  · simp only [hillClimbingPickGuess, hcands]
    rw [hgo (posFreq words)]
  · simp only [kbHillClimbingPickGuess, hcands]
    rw [hgo (posFreq [w])]

/-- C6: single-candidate short-circuit.  Whenever the history is non-empty
and the candidate set the selector computes from the full history contains
exactly one word `w`, every selector's `pick_guess` returns `w`: the entropy
solver (which filters by the whole history), and the DFS, progressive
entropy, and both hill-climbing solvers (which filter by the last pair). -/
theorem C6_single_candidate_short_circuit {α : Type} [LinearOrder α] [Zero α]
    (words alreadyUsed S : List String) (fg : String) (H : String → α)
    (sampled : List String) (greedy : String) (history : List (String × Nat))
    (w : String) (hne : history ≠ []) :
    (updateConsistent words S history = [w] →
      entPickGuess words alreadyUsed S fg history = w) ∧
    (updateTrieWords words S history = [w] →
      progPickGuess words S fg H sampled greedy history = w ∧
      (w.length = 5 →
        dfsPickGuess words S history = w ∧
        hillClimbingPickGuess words S history = w ∧
        kbHillClimbingPickGuess words S history = w)) := by
  constructor
  · intro hcands
    exact entPickGuess_single words alreadyUsed S fg history hne w hcands
  · intro hcands
    refine ⟨progPickGuess_single words S fg H sampled greedy history hne w hcands,
      fun h5 => ⟨dfsPickGuess_single words S history w hcands h5, ?_⟩⟩
    exact hillClimb_single words S history w hcands h5

/-- Witness for C6 on a concrete history narrowing to a single word. -/
theorem C6_single_candidate_short_circuit_witness :
    (updateConsistent ["apple", "raise"] ["apple", "raise"] [("raise", 29)]
        = ["apple"] →
      entPickGuess ["apple", "raise"] [] ["apple", "raise"] "tares" [("raise", 29)]
        = "apple") ∧
    (updateTrieWords ["apple", "raise"] ["apple", "raise"] [("raise", 29)]
        = ["apple"] →
      progPickGuess ["apple", "raise"] ["apple", "raise"] "tares"
          (fun _ => (0 : Nat)) [] "apple" [("raise", 29)] = "apple" ∧
      ("apple".length = 5 →
        dfsPickGuess ["apple", "raise"] ["apple", "raise"] [("raise", 29)]
            = "apple" ∧
        hillClimbingPickGuess ["apple", "raise"] ["apple", "raise"] [("raise", 29)]
            = "apple" ∧
        kbHillClimbingPickGuess ["apple", "raise"] ["apple", "raise"]
            [("raise", 29)] = "apple")) :=
  C6_single_candidate_short_circuit ["apple", "raise"] [] ["apple", "raise"]
    "tares" (fun _ => (0 : Nat)) [] "apple" [("raise", 29)] "apple" (by decide)

/-! ### Empty-candidate lemmas and claim C7 -/

lemma dfs_search_emptyRoot : (dfs_search emptyRoot).2.1 = none := by
  unfold dfs_search
  rw [dfsLoop]
  have hw : emptyRoot.is_word = false := rfl
  rw [hw]
  have hpush : pushEntries emptyRoot [] [] = [] := by
    simp [pushEntries, emptyRoot, TrieNode.children, sortChildrenDesc,
      List.insertionSort]
  simp only [Bool.false_eq_true, if_false, hpush]
  rw [dfsLoop]

lemma greedyGo_emptyRoot (heur : Nat → Char → Nat) :
    greedyGo heur 5 0 emptyRoot "" = none := by
  simp [greedyGo, emptyRoot, TrieNode.children, argmaxKeyFirst]

lemma entPickGuess_empty (words alreadyUsed S : List String) (fg : String)
    (history : List (String × Nat)) (hne : history ≠ [])
    (hcands : updateConsistent words S history = []) :
    entPickGuess words alreadyUsed S fg history = "error" := by
  simp only [entPickGuess, if_neg hne, hcands]

lemma dfsPickGuess_empty (words S : List String) (history : List (String × Nat))
    (hcands : updateTrieWords words S history = []) :
    dfsPickGuess words S history = "error" := by
  simp only [dfsPickGuess, hcands]
  rcases hds : dfs_search (buildTrie []) with ⟨p, ow, n⟩
  have hempty : buildTrie ([] : List String) = emptyRoot := rfl
  rw [hempty] at hds
  have := dfs_search_emptyRoot
  rw [hds] at this
  simp only at this
  rw [this]

lemma hillClimb_empty (words S : List String) (history : List (String × Nat))
    (hcands : updateTrieWords words S history = []) :
    hillClimbingPickGuess words S history = "error" ∧
      kbHillClimbingPickGuess words S history = "error" := by
  constructor
  · simp only [hillClimbingPickGuess, hcands]
    rw [show buildTrie ([] : List String) = emptyRoot from rfl,
      greedyGo_emptyRoot (posFreq words)]
  · simp only [kbHillClimbingPickGuess, hcands]
    rw [show buildTrie ([] : List String) = emptyRoot from rfl,
      greedyGo_emptyRoot (posFreq [])]

lemma progPickGuess_empty {α : Type} [LinearOrder α] [Zero α]
    (words S : List String) (fg : String) (H : String → α)
    (sampled : List String) (greedy : String) (history : List (String × Nat))
    (hne : history ≠ []) (hcands : updateTrieWords words S history = []) :
    progPickGuess words S fg H sampled greedy history = "error" := by
  simp only [progPickGuess, if_neg hne, hcands]
  simp [finalSelection, bestCached, cacheLookup]

/-- C7 counterexample: with a vocabulary containing the word "error", a
history that empties the candidate set makes `EntropySolver.pick_guess`
return the plain string `"error"` — a 5-letter lowercase member of the legal
vocabulary, not an error result distinct from legal guess words and not a
loud failure.  This refutes the claim as stated. -/
theorem C7_counterexample :
    entPickGuess ["apple", "error"] [] ["apple", "error"] "tares" [("apple", 0)]
        = "error"
      ∧ updateConsistent ["apple", "error"] ["apple", "error"] [("apple", 0)] = []
      ∧ "error" ∈ (["apple", "error"] : List String)
      ∧ "error".length = 5 := by
  have hup : updateConsistent ["apple", "error"] ["apple", "error"] [("apple", 0)]
      = [] := by decide
  exact ⟨entPickGuess_empty _ _ _ _ _ (by decide) hup, hup, by decide, by decide⟩

/-- C7 amended: when narrowing by the history reduces the candidate set to
zero words, every selector's `pick_guess` returns the sentinel string
`"error"` — an ordinary 5-letter string not distinguished from a legal guess
word (and possibly itself a vocabulary word) — rather than surfacing a hard
failure distinct from any legal guess. -/
theorem C7_amended_empty_candidates_sentinel {α : Type} [LinearOrder α] [Zero α]
    (words alreadyUsed S : List String) (fg : String) (H : String → α)
    (sampled : List String) (greedy : String) (history : List (String × Nat))
    (hne : history ≠ []) :
    (updateConsistent words S history = [] →
      entPickGuess words alreadyUsed S fg history = "error") ∧
    (updateTrieWords words S history = [] →
      dfsPickGuess words S history = "error" ∧
      hillClimbingPickGuess words S history = "error" ∧
      kbHillClimbingPickGuess words S history = "error" ∧
      progPickGuess words S fg H sampled greedy history = "error") := by
  refine ⟨fun hc => entPickGuess_empty words alreadyUsed S fg history hne hc,
    fun hc => ⟨dfsPickGuess_empty words S history hc, ?_, ?_,
      progPickGuess_empty words S fg H sampled greedy history hne hc⟩⟩
  · exact (hillClimb_empty words S history hc).1
  · exact (hillClimb_empty words S history hc).2

/-- Witness for the amended C7 on a concrete emptying history. -/
theorem C7_amended_empty_candidates_sentinel_witness :
    (updateConsistent ["apple", "error"] ["apple", "error"] [("apple", 0)] = [] →
      entPickGuess ["apple", "error"] [] ["apple", "error"] "tares" [("apple", 0)]
        = "error") ∧
    (updateTrieWords ["apple", "error"] ["apple", "error"] [("apple", 0)] = [] →
      dfsPickGuess ["apple", "error"] ["apple", "error"] [("apple", 0)] = "error" ∧
      hillClimbingPickGuess ["apple", "error"] ["apple", "error"] [("apple", 0)]
          = "error" ∧
      kbHillClimbingPickGuess ["apple", "error"] ["apple", "error"] [("apple", 0)]
          = "error" ∧
      progPickGuess ["apple", "error"] ["apple", "error"] "tares"
          (fun _ => (0 : Nat)) [] "apple" [("apple", 0)] = "error") :=
  C7_amended_empty_candidates_sentinel ["apple", "error"] [] ["apple", "error"]
    "tares" (fun _ => (0 : Nat)) [] "apple" [("apple", 0)] (by decide)

/-! ### Trie word-set lemmas and claim C8 -/

lemma string_eq_of_toList (a b : String) (h : a.toList = b.toList) : a = b := by
  cases a
  cases b
  exact congrArg String.mk h

lemma wordsIn_lookupChild (ch : Char) (t0 : TrieNode) :
    ∀ cs : List (Char × TrieNode), lookupChild cs ch = some t0 →
      ∀ x ∈ wordsIn t0, x ∈ wordsInChildren cs := by
  intro cs
  induction cs with
  | nil => intro h; simp [lookupChild] at h
  | cons e r ih =>
    rcases e with ⟨c1, t1⟩
    intro h x hx
    by_cases hc : c1 = ch
    · rw [lookupChild, if_pos hc] at h
      cases h
      exact List.mem_append.mpr (Or.inl hx)
    · rw [lookupChild, if_neg hc] at h
      exact List.mem_append.mpr (Or.inr (ih h x hx))

lemma wordsInChildren_assocSet (ch : Char) (t' : TrieNode) (x : String) :
    ∀ cs : List (Char × TrieNode), x ∈ wordsInChildren (assocSet cs ch t') →
      x ∈ wordsIn t' ∨ x ∈ wordsInChildren cs := by
  intro cs
  induction cs with
  | nil =>
    intro hx
    simp only [assocSet, wordsInChildren, wordsIn] at hx
    rcases List.mem_append.mp hx with h | h
    · exact Or.inl h
    · simp [wordsInChildren] at h
  | cons e r ih =>
    rcases e with ⟨c1, t1⟩
    intro hx
    by_cases hc : c1 = ch
    · rw [assocSet, if_pos hc] at hx
      rw [wordsInChildren] at hx
      rcases List.mem_append.mp hx with h | h
      · exact Or.inl h
      · exact Or.inr (List.mem_append.mpr (Or.inr h))
    · rw [assocSet, if_neg hc] at hx
      rw [wordsInChildren] at hx
      rcases List.mem_append.mp hx with h | h
      · exact Or.inr (List.mem_append.mpr (Or.inl h))
      · rcases ih h with h2 | h2
        · exact Or.inl h2
        · exact Or.inr (List.mem_append.mpr (Or.inr h2))

lemma wordsIn_mem_assocSet (ch : Char) (t' : TrieNode) (x : String)
    (hx : x ∈ wordsIn t') :
    ∀ cs : List (Char × TrieNode), x ∈ wordsInChildren (assocSet cs ch t') := by
  intro cs
  induction cs with
  | nil =>
    simp only [assocSet, wordsInChildren]
    exact List.mem_append.mpr (Or.inl hx)
  | cons e r ih =>
    rcases e with ⟨c1, t1⟩
    by_cases hc : c1 = ch
    · rw [assocSet, if_pos hc, wordsInChildren]
      exact List.mem_append.mpr (Or.inl hx)
    · rw [assocSet, if_neg hc, wordsInChildren]
      exact List.mem_append.mpr (Or.inr ih)

lemma wordsIn_insertAux_subset (w : String) :
    ∀ (cs : List Char) (d : Nat) (t : TrieNode) (x : String),
      x ∈ wordsIn (insertAux w cs d t) → x ∈ wordsIn t ∨ x = w := by
  intro cs
  induction cs with
  | nil =>
    intro d t x hx
    rcases t with ⟨c, d0, cs', iw, ow⟩
    rw [insertAux, wordsIn] at hx
    rcases List.mem_append.mp hx with h | h
    · simp at h
      exact Or.inr h
    · exact Or.inl (by rw [wordsIn]; exact List.mem_append.mpr (Or.inr h))
  | cons ch rest ih =>
    intro d t x hx
    rcases t with ⟨c, d0, cs', iw, ow⟩
    rw [insertAux, wordsIn] at hx
    rcases List.mem_append.mp hx with h | h
    · exact Or.inl (by rw [wordsIn]; exact List.mem_append.mpr (Or.inl h))
    · rcases wordsInChildren_assocSet ch _ x cs' h with h2 | h2
      · rcases ih (d + 1) _ x h2 with h3 | h3
        · cases hlook : lookupChild cs' ch with
          | some t0 =>
            rw [hlook] at h3
            simp only [Option.getD_some] at h3
            exact Or.inl (by
              rw [wordsIn]
              exact List.mem_append.mpr
                (Or.inr (wordsIn_lookupChild ch t0 cs' hlook x h3)))
          | none =>
            rw [hlook] at h3
            simp only [Option.getD_none] at h3
            rw [wordsIn] at h3
            simp [wordsInChildren] at h3
        · exact Or.inr h3
      · exact Or.inl (by rw [wordsIn]; exact List.mem_append.mpr (Or.inr h2))

lemma self_mem_wordsIn_insertAux (w : String) :
    ∀ (cs : List Char) (d : Nat) (t : TrieNode),
      w ∈ wordsIn (insertAux w cs d t) := by
  intro cs
  induction cs with
  | nil =>
    intro d t
    rcases t with ⟨c, d0, cs', iw, ow⟩
    rw [insertAux, wordsIn]
    exact List.mem_append.mpr (Or.inl (by simp))
  | cons ch rest ih =>
    intro d t
    rcases t with ⟨c, d0, cs', iw, ow⟩
    rw [insertAux, wordsIn]
    exact List.mem_append.mpr
      (Or.inr (wordsIn_mem_assocSet ch _ w (ih (d + 1) _) cs'))

lemma goodChildren_lookup (p : List Char) (ch : Char) (t0 : TrieNode) :
    ∀ cs : List (Char × TrieNode), goodChildren p cs →
      lookupChild cs ch = some t0 → goodNode (p ++ [ch]) t0 := by
  intro cs
  induction cs with
  | nil => intro _ h; simp [lookupChild] at h
  | cons e r ih =>
    rcases e with ⟨c1, t1⟩
    intro hg h
    rw [goodChildren] at hg
    by_cases hc : c1 = ch
    · rw [lookupChild, if_pos hc] at h
      cases h
      rw [← hc]
      exact hg.1
    · rw [lookupChild, if_neg hc] at h
      exact ih hg.2 h

lemma goodChildren_assocSet (p : List Char) (ch : Char) (t' : TrieNode)
    (ht : goodNode (p ++ [ch]) t') :
    ∀ cs : List (Char × TrieNode), goodChildren p cs →
      goodChildren p (assocSet cs ch t') := by
  intro cs
  induction cs with
  | nil => intro _; rw [assocSet]; exact ⟨ht, trivial⟩
  | cons e r ih =>
    rcases e with ⟨c1, t1⟩
    intro hg
    rw [goodChildren] at hg
    by_cases hc : c1 = ch
    · rw [assocSet, if_pos hc, goodChildren]
      exact ⟨ht, hg.2⟩
    · rw [assocSet, if_neg hc, goodChildren]
      exact ⟨hg.1, ih hg.2⟩

lemma goodNode_insertAux (w : String) :
    ∀ (cs : List Char) (p : List Char) (d : Nat) (t : TrieNode),
      goodNode p t → w.toList = p ++ cs → goodNode p (insertAux w cs d t) := by
  intro cs
  induction cs with
  | nil =>
    intro p d t hg hw
    rcases t with ⟨c, d0, cs', iw, ow⟩
    rw [insertAux, goodNode]
    rw [goodNode] at hg
    refine ⟨fun _ => ⟨w, rfl, by simpa using hw⟩, hg.2⟩
  | cons ch rest ih =>
    intro p d t hg hw
    rcases t with ⟨c, d0, cs', iw, ow⟩
    rw [insertAux, goodNode]
    rw [goodNode] at hg
    refine ⟨hg.1, ?_⟩
    apply goodChildren_assocSet
    · apply ih (p ++ [ch]) (d + 1)
      · cases hlook : lookupChild cs' ch with
        | some t0 =>
          simp only [Option.getD_some]
          exact goodChildren_lookup p ch t0 cs' hg.2 hlook
        | none =>
          simp only [Option.getD_none]
          rw [goodNode]
          exact ⟨fun h => Bool.noConfusion h, trivial⟩
      · rw [hw, List.append_assoc]
        rfl
    · exact hg.2

lemma goodNode_emptyRoot : goodNode [] emptyRoot := by
  rw [emptyRoot, goodNode]
  exact ⟨fun h => Bool.noConfusion h, trivial⟩

lemma goodNode_buildTrieAux :
    ∀ (l : List String) (t : TrieNode), goodNode [] t →
      goodNode [] (l.foldl (fun t w => if w.length = 5 then insertWord t w else t) t) := by
  intro l
  induction l with
  | nil => intro t h; exact h
  | cons w r ih =>
    intro t h
    rw [List.foldl_cons]
    apply ih
    by_cases h5 : w.length = 5
    · rw [if_pos h5]
      exact goodNode_insertAux w w.toList [] 1 t h rfl
    · rw [if_neg h5]
      exact h

lemma wordsIn_insertAux_preserve (w : String) :
    ∀ (cs : List Char) (p : List Char) (d : Nat) (t : TrieNode) (x : String),
      goodNode p t → x ∈ wordsIn t → w.toList = p ++ cs →
      x = w ∨ x ∈ wordsIn (insertAux w cs d t) := by
  intro cs
  induction cs with
  | nil =>
    intro p d t x hg hx hw
    rcases t with ⟨c, d0, cs', iw, ow⟩
    rw [goodNode] at hg
    rw [wordsIn] at hx
    rcases List.mem_append.mp hx with h | h
    · left
      rcases iw with _ | _
      · simp at h
      · obtain ⟨w', hw', hwp⟩ := hg.1 rfl
        rw [hw'] at h
        simp at h
        apply string_eq_of_toList
        rw [h, hwp, hw]
        simp
    · right
      rw [insertAux, wordsIn]
      exact List.mem_append.mpr (Or.inr h)
  | cons ch rest ih =>
    intro p d t x hg hx hw
    rcases t with ⟨c, d0, cs', iw, ow⟩
    rw [goodNode] at hg
    rw [wordsIn] at hx
    rcases List.mem_append.mp hx with h | h
    · right
      rw [insertAux, wordsIn]
      exact List.mem_append.mpr (Or.inl h)
    · have inner : ∀ cs' : List (Char × TrieNode), goodChildren p cs' →
          x ∈ wordsInChildren cs' →
          x = w ∨ x ∈ wordsInChildren (assocSet cs' ch (insertAux w rest (d + 1)
            ((lookupChild cs' ch).getD (TrieNode.mk ch d [] false none)))) := by
        intro cs'
        induction cs' with
        | nil => intro _ hmem; simp [wordsInChildren] at hmem
        | cons e r ihr =>
          rcases e with ⟨c1, t1⟩
          intro hgc hmem
          rw [goodChildren] at hgc
          rw [wordsInChildren] at hmem
          by_cases hc : c1 = ch
          · have hlook : lookupChild ((c1, t1) :: r) ch = some t1 := by
              rw [lookupChild, if_pos hc]
            rcases List.mem_append.mp hmem with hm | hm
            · have hgt1 : goodNode (p ++ [ch]) t1 := by rw [← hc]; exact hgc.1
              rcases ih (p ++ [ch]) (d + 1) t1 x hgt1 hm
                  (by rw [hw, List.append_assoc]; rfl) with h2 | h2
              · exact Or.inl h2
              · right
                rw [hlook]
                simp only [Option.getD_some]
                rw [assocSet, if_pos hc, wordsInChildren]
                exact List.mem_append.mpr (Or.inl h2)
            · right
              rw [hlook]
              simp only [Option.getD_some]
              rw [assocSet, if_pos hc, wordsInChildren]
              exact List.mem_append.mpr (Or.inr hm)
          · have hlook : lookupChild ((c1, t1) :: r) ch = lookupChild r ch := by
              rw [lookupChild, if_neg hc]
            rcases List.mem_append.mp hmem with hm | hm
            · right
              rw [hlook, assocSet, if_neg hc, wordsInChildren]
              exact List.mem_append.mpr (Or.inl hm)
            · rcases ihr hgc.2 hm with h2 | h2
              · exact Or.inl h2
              · right
                rw [hlook, assocSet, if_neg hc, wordsInChildren]
                exact List.mem_append.mpr (Or.inr h2)
      rcases inner cs' hg.2 h with h2 | h2
      · exact Or.inl h2
      · right
        rw [insertAux, wordsIn]
        exact List.mem_append.mpr (Or.inr h2)

lemma wordsIn_emptyRoot : wordsIn emptyRoot = [] := rfl

lemma wordsIn_buildTrie_sound (x : String) :
    ∀ (l : List String) (t : TrieNode),
      x ∈ wordsIn (l.foldl (fun t w => if w.length = 5 then insertWord t w else t) t) →
      x ∈ wordsIn t ∨ x ∈ l := by
  intro l
  induction l with
  | nil => intro t hx; exact Or.inl hx
  | cons w r ih =>
    intro t hx
    rw [List.foldl_cons] at hx
    rcases ih _ hx with h | h
    · by_cases h5 : w.length = 5
      · rw [if_pos h5] at h
        rcases wordsIn_insertAux_subset w w.toList 1 t x h with h2 | h2
        · exact Or.inl h2
        · exact Or.inr (by simp [h2])
      · rw [if_neg h5] at h
        exact Or.inl h
    · exact Or.inr (by simp [h])

lemma wordsIn_buildTrie_complete (x : String) :
    ∀ (l : List String) (t : TrieNode), goodNode [] t →
      (x ∈ wordsIn t ∨ (x ∈ l ∧ x.length = 5)) →
      x ∈ wordsIn (l.foldl (fun t w => if w.length = 5 then insertWord t w else t) t) := by
  intro l
  induction l with
  | nil =>
    intro t _ hx
    rcases hx with h | ⟨h, _⟩
    · exact h
    · simp at h
  | cons w r ih =>
    intro t hg hx
    rw [List.foldl_cons]
    by_cases h5 : w.length = 5
    · rw [if_pos h5]
      apply ih _ (goodNode_insertAux w w.toList [] 1 t hg rfl)
      rcases hx with h | ⟨h, hxl⟩
      · rcases wordsIn_insertAux_preserve w w.toList [] 1 t x hg h rfl with h2 | h2
        · exact Or.inl (by rw [h2]; exact self_mem_wordsIn_insertAux w w.toList 1 t)
        · exact Or.inl h2
      · rcases List.mem_cons.mp h with rfl | h2
        · exact Or.inl (self_mem_wordsIn_insertAux x x.toList 1 t)
        · exact Or.inr ⟨h2, hxl⟩
    · rw [if_neg h5]
      apply ih _ hg
      rcases hx with h | ⟨h, hxl⟩
      · exact Or.inl h
      · rcases List.mem_cons.mp h with rfl | h2
        · exact absurd hxl h5
        · exact Or.inr ⟨h2, hxl⟩

lemma mem_wordsIn_buildTrie (l : List String) (hl : ∀ y ∈ l, y.length = 5)
    (x : String) : x ∈ wordsIn (buildTrie l) ↔ x ∈ l := by
  constructor
  · intro hx
    rcases wordsIn_buildTrie_sound x l emptyRoot hx with h | h
    · rw [wordsIn_emptyRoot] at h
      simp at h
    · exact h
  · intro hx
    exact wordsIn_buildTrie_complete x l emptyRoot goodNode_emptyRoot
      (Or.inr ⟨hx, hl x hx⟩)

set_option maxRecDepth 100000

/-- C8 counterexample: after one turn on the repository's fallback
vocabulary, with the real codec feedback for guess "crate" against secret
"apple" (pattern 11), `_update_trie` rebuilds the trie WITHOUT the
still-allowed word "stone": the trie the progressive solver samples from is
re-pruned by history and no longer contains the full allowed vocabulary,
refuting the claim as stated. -/
theorem C8_counterexample :
    "stone" ∈ (["apple", "raise", "stone", "crate", "slate", "trace", "arise"] :
        List String)
    ∧ calculate_pattern "crate" "apple" = 11
    ∧ "stone" ∉ updateTrieWords
        ["apple", "raise", "stone", "crate", "slate", "trace", "arise"]
        ["apple", "raise", "stone", "crate", "slate", "trace", "arise"]
        [("crate", 11)]
    ∧ "stone" ∉ wordsIn (buildTrie (updateTrieWords
        ["apple", "raise", "stone", "crate", "slate", "trace", "arise"]
        ["apple", "raise", "stone", "crate", "slate", "trace", "arise"]
        [("crate", 11)])) := by decide

/-- C8 amended: on every turn the trie used by the sampled/progressive
selector is rebuilt from the history-narrowed candidate set: its word set is
exactly the narrowed set (a subset of the previous turn's set), so the
sampling universe shrinks together with the scoring candidate set instead of
staying the full vocabulary. -/
theorem C8_amended_trie_rebuilt_from_narrowed_set (words S : List String)
    (history : List (String × Nat)) (h5 : ∀ w ∈ S, w.length = 5) :
    (∀ x, x ∈ wordsIn (buildTrie (updateTrieWords words S history)) ↔
        x ∈ updateTrieWords words S history) ∧
      updateTrieWords words S history ⊆ S := by
  have hsub : updateTrieWords words S history ⊆ S := by
    rw [updateTrieWords]
    cases history.getLast? with
    | none => exact fun x hx => hx
    | some p => exact consistentStep_subset words S p
  exact ⟨fun x => mem_wordsIn_buildTrie _ (fun y hy => h5 y (hsub hy)) x, hsub⟩

/-- Witness for the amended C8 on a concrete narrowed turn. -/
theorem C8_amended_trie_rebuilt_from_narrowed_set_witness :
    (∀ x, x ∈ wordsIn (buildTrie (updateTrieWords ["apple", "raise"]
          ["apple", "raise"] [("raise", 29)])) ↔
        x ∈ updateTrieWords ["apple", "raise"] ["apple", "raise"] [("raise", 29)]) ∧
      updateTrieWords ["apple", "raise"] ["apple", "raise"] [("raise", 29)]
        ⊆ ["apple", "raise"] :=
  C8_amended_trie_rebuilt_from_narrowed_set ["apple", "raise"] ["apple", "raise"]
    [("raise", 29)] (by decide)
